import Mathlib

/-!
A verification development for the `simple-markdown-builder` static-site
generator.  The TypeScript sources are embedded shallowly: JavaScript strings
become `List Char`, the JS string primitives used by the code
(`trim`, `split`, `replace` with its `$`-substitution rules, …) are modelled
explicitly, and each exported function of the builder is translated into an
executable Lean definition.  External capabilities (the DeepL translator,
`new URL(...)` resolution, the markdown renderer) are passed in as opaque
function parameters, exactly at the boundary where the code calls them.
-/

set_option maxHeartbeats 1000000
set_option linter.unusedVariables false

namespace SMB

/-- JavaScript strings, modelled as lists of characters. -/
abbrev Str := List Char

/-- Shorthand: the character list of a Lean string literal. -/
def kw (s : String) : Str := s.data

/-! ## JS string primitives -/

/-- The character class `\s` of JS regexes / the set trimmed by
`String.prototype.trim` (ASCII whitespace plus NBSP; the rarer Unicode
space characters are irrelevant to every property proved here). -/
def jsWhitespace (c : Char) : Bool :=
  c = ' ' || c = '\t' || c = '\n' || c = '\r' ||
  c = Char.ofNat 11 || c = Char.ofNat 12 || c = Char.ofNat 160

/-- ASCII lowercasing, the fragment of `String.prototype.toLowerCase`
relevant to the builder (slugs and language tags are ASCII). -/
def asciiToLower (c : Char) : Char :=
  if 'A' ≤ c ∧ c ≤ 'Z' then Char.ofNat (c.toNat + 32) else c

/-- `String.prototype.trimStart`-like helper. -/
def jsTrimStart (s : Str) : Str := s.dropWhile jsWhitespace

/-- `String.prototype.trimEnd`-like helper. -/
def jsTrimEnd (s : Str) : Str := (s.reverse.dropWhile jsWhitespace).reverse

/-- `String.prototype.trim`. -/
def jsTrim (s : Str) : Str := jsTrimEnd (jsTrimStart s)

/-- `str.split(sep)` for a single-character separator: splits at every
occurrence, keeping empty pieces (JS semantics). -/
def splitOnChar (sep : Char) : Str → List Str
  | [] => [[]]
  | c :: cs =>
    if c = sep then [] :: splitOnChar sep cs
    else
      match splitOnChar sep cs with
      | [] => [[c]]
      | l :: ls => (c :: l) :: ls

/-- `parts.join(sep)` for a single-character separator. -/
def joinWith (sep : Char) : List Str → Str
  | [] => []
  | [l] => l
  | l :: ls => l ++ sep :: joinWith sep ls

/-- `str.split(/\r?\n/)`: the regex prefers to consume a `\r` directly
before each `\n`; a lone `\r` is ordinary text. -/
def splitLines : Str → List Str
  | [] => [[]]
  | '\r' :: '\n' :: rest => [] :: splitLines rest
  | '\n' :: rest => [] :: splitLines rest
  | c :: rest =>
    match splitLines rest with
    | [] => [[c]]
    | l :: ls => (c :: l) :: ls

/-- `GetSubstitution` of ECMA-262 for a string `searchValue` (no capture
groups): `$$` is a literal dollar, `$&` the matched text, a backquote-dollar
pattern the text before the match, a quote-dollar pattern the text after it;
any other `$` sequence is literal. -/
def getSubstGo (matched before after : Str) : Nat → Str → Str
  | 0, _ => []
  | fuel + 1, r =>
    match r with
    | [] => []
    | c :: rest =>
      if c = '$' then
        match rest with
        | [] => ['$']
        | d :: rest2 =>
          if d = '$' then '$' :: getSubstGo matched before after fuel rest2
          else if d = '&' then matched ++ getSubstGo matched before after fuel rest2
          else if d = Char.ofNat 96 then before ++ getSubstGo matched before after fuel rest2
          else if d = Char.ofNat 39 then after ++ getSubstGo matched before after fuel rest2
          else '$' :: getSubstGo matched before after fuel (d :: rest2)
      else c :: getSubstGo matched before after fuel rest

/-- Entry point of the `$`-substitution scanner; the fuel bounds the
replacement string's length, which each step strictly consumes. -/
def getSubst (matched before after r : Str) : Str :=
  getSubstGo matched before after r.length r

/-- Auxiliary scanner for `jsReplaceFirst`: `preRev` holds the already
scanned part of the subject, reversed; the fuel bounds the unscanned
length. -/
def rfGo (pat repl : Str) : Nat → Str → Str → Str
  | 0, preRev, rest =>
    if pat.isPrefixOf rest then
      getSubst pat preRev.reverse (rest.drop pat.length) repl ++ rest.drop pat.length
    else []
  | fuel + 1, preRev, rest =>
    if pat.isPrefixOf rest then
      getSubst pat preRev.reverse (rest.drop pat.length) repl ++ rest.drop pat.length
    else
      match rest with
      | [] => []
      | c :: cs => c :: rfGo pat repl fuel (c :: preRev) cs

/-- `subject.replace(pat, repl)` with a *string* pattern: replaces the first
occurrence only, applying the `$`-substitution rules to `repl`. -/
def jsReplaceFirst (s pat repl : Str) : Str := rfGo pat repl s.length [] s

/-- `(rest.drop n).length` shrinks when a nonempty prefix is dropped. -/
theorem drop_len_lt_of_isPrefixOf {pat rest : Str} (h1 : pat ≠ [])
    (h2 : pat.isPrefixOf rest = true) :
    (rest.drop pat.length).length < rest.length := by
  have hle : pat.length ≤ rest.length := by
    rcases List.isPrefixOf_iff_prefix.mp h2 with ⟨t, ht⟩
    subst ht
    simp
  have hpos : 0 < pat.length := List.length_pos.mpr h1
  have hrpos : 0 < rest.length := lt_of_lt_of_le hpos hle
  simp only [List.length_drop]
  omega

/-- `subject.replace(re, repl)` for a global regex made of literal
characters (the builder's placeholder regexes): every non-overlapping
occurrence is replaced left to right, `repl` going through
`$`-substitution at each match.  `preRev` is the scanned part of the
original subject, reversed (needed for the before/after of a match). -/
def raGo (pat repl : Str) : Nat → Str → Str → Str
  | 0, _, _ => []
  | fuel + 1, preRev, rest =>
    if pat ≠ [] ∧ pat.isPrefixOf rest then
      getSubst pat preRev.reverse (rest.drop pat.length) repl ++
        raGo pat repl fuel (pat.reverse ++ preRev) (rest.drop pat.length)
    else
      match rest with
      | [] => []
      | c :: cs => c :: raGo pat repl fuel (c :: preRev) cs

/-- Global literal-pattern replace (see `raGo`); the fuel bounds the
unscanned length, each step consuming at least one character. -/
def jsReplaceAll (s pat repl : Str) : Str := raGo pat repl s.length [] s

/-- Boolean substring test: does `pat` occur contiguously inside `s`? -/
def occursB (pat : Str) : Str → Bool
  | [] => pat.isEmpty
  | c :: cs => pat.isPrefixOf (c :: cs) || occursB pat cs

/-- Propositional substring occurrence. -/
def OccursIn (pat s : Str) : Prop := ∃ u v, s = u ++ pat ++ v

theorem isPrefixOf_iff_exists {pat s : Str} :
    pat.isPrefixOf s = true ↔ ∃ t, s = pat ++ t := by
  rw [List.isPrefixOf_iff_prefix]
  constructor
  · rintro ⟨t, ht⟩; exact ⟨t, ht.symm⟩
  · rintro ⟨t, ht⟩; exact ⟨t, ht.symm⟩

theorem occursB_iff {pat s : Str} : occursB pat s = true ↔ OccursIn pat s := by
  induction s with
  | nil =>
    simp only [occursB, List.isEmpty_iff, OccursIn]
    constructor
    · rintro rfl; exact ⟨[], [], rfl⟩
    · rintro ⟨u, v, huv⟩
      have h := huv.symm
      rcases u with _ | ⟨a, u⟩
      · rcases pat with _ | ⟨b, p⟩
        · rfl
        · simp at h
      · simp at h
  | cons c cs ih =>
    simp only [occursB, Bool.or_eq_true]
    constructor
    · rintro (h | h)
      · rcases isPrefixOf_iff_exists.mp h with ⟨t, ht⟩
        exact ⟨[], t, by simp [ht]⟩
      · rcases ih.mp h with ⟨u, v, huv⟩
        exact ⟨c :: u, v, by simp [huv]⟩
    · rintro ⟨u, v, huv⟩
      cases u with
      | nil =>
        left
        exact isPrefixOf_iff_exists.mpr ⟨v, by simpa using huv⟩
      | cons d ds =>
        right
        have h2 : c :: cs = d :: (ds ++ (pat ++ v)) := by simpa using huv
        injection h2 with h3 h4
        exact ih.mpr ⟨ds, v, by simpa using h4⟩

/-! ## `src/frontmatter.ts` -/

/-- A front-matter value that is declared `string | boolean` in
`config.ts` (`translate`, `noindex`). -/
inductive StrOrBool where
  | str (s : Str)
  | bool (b : Bool)
  deriving DecidableEq

/-- The `FrontMatter` record of `config.ts`: a sparse key/value record, all
fields optional.  (Unknown keys assigned at runtime are not observable by
any later stage of the pipeline and are not modelled.) -/
structure FrontMatter where
  title : Option Str := none
  description : Option Str := none
  sidebarTitle : Option Str := none
  sidebarSummary : Option Str := none
  backLinkHref : Option Str := none
  backLinkLabel : Option Str := none
  slug : Option Str := none
  lang : Option Str := none
  translationOf : Option Str := none
  translate : Option StrOrBool := none
  noindex : Option StrOrBool := none
  ogImage : Option Str := none
  twitterImage : Option Str := none
  output : Option Str := none
  deriving DecidableEq

/-- The regex `/^---\s*$/` applied to one line. -/
def isBoundaryLine (l : Str) : Bool :=
  match l with
  | '-' :: '-' :: '-' :: rest => rest.all jsWhitespace
  | _ => false

/-- `parseMetaValue`: strips a surrounding double-quote pair and undoes the
`\"` and `\\` escapes (two sequential global replaces, in that order). -/
def parseMetaValue (raw : Str) : Str :=
  if raw.head? = some '"' ∧ raw.getLast? = some '"' then
    jsReplaceAll (jsReplaceAll (raw.drop 1).dropLast (kw "\\\"") (kw "\"")) (kw "\\\\") (kw "\\")
  else raw

/-- `{true, yes, 1}` membership after lowercasing, used for the two
boolean front-matter fields. -/
def parseBoolWord (rawValue : Str) : Bool :=
  let normalized := rawValue.map asciiToLower
  normalized = kw "true" || normalized = kw "yes" || normalized = kw "1"

/-- One step of `parseMeta`'s reduce: split the line at every `:`, skip it
when there is no key or no value part, parse booleans for
`noindex`/`translate`, store everything else as a parsed string. -/
def parseMetaLine (acc : FrontMatter) (line : Str) : FrontMatter :=
  match splitOnChar ':' line with
  | [] => acc
  | key :: rest =>
    if key = [] ∨ rest = [] then acc
    else
      let rawValue := jsTrim (joinWith ':' rest)
      let keyName := jsTrim key
      if keyName = kw "noindex" then { acc with noindex := some (.bool (parseBoolWord rawValue)) }
      else if keyName = kw "translate" then { acc with translate := some (.bool (parseBoolWord rawValue)) }
      else
        let value := parseMetaValue rawValue
        if keyName = kw "title" then { acc with title := some value }
        else if keyName = kw "description" then { acc with description := some value }
        else if keyName = kw "sidebarTitle" then { acc with sidebarTitle := some value }
        else if keyName = kw "sidebarSummary" then { acc with sidebarSummary := some value }
        else if keyName = kw "backLinkHref" then { acc with backLinkHref := some value }
        else if keyName = kw "backLinkLabel" then { acc with backLinkLabel := some value }
        else if keyName = kw "slug" then { acc with slug := some value }
        else if keyName = kw "lang" then { acc with lang := some value }
        else if keyName = kw "translationOf" then { acc with translationOf := some value }
        else if keyName = kw "ogImage" then { acc with ogImage := some value }
        else if keyName = kw "twitterImage" then { acc with twitterImage := some value }
        else if keyName = kw "output" then { acc with output := some value }
        else acc

/-- `parseMeta`: fold the meta lines into a `FrontMatter` record. -/
def parseMeta (lines : List Str) : FrontMatter :=
  lines.foldl parseMetaLine {}

/-- `extractFrontMatter`: if the document opens with a boundary line and a
second boundary line exists later, the lines between are metadata and the
lines after are the (trimmed) body; otherwise the metadata is empty and the
whole trimmed document is the body. -/
def extractFrontMatter (raw : Str) : Str × FrontMatter :=
  let lines := splitLines raw
  match lines with
  | [] => (jsTrim raw, {})
  | l0 :: rest =>
    if isBoundaryLine l0 then
      match rest.findIdx? isBoundaryLine with
      | some i =>
        let metaLines := rest.take i
        let bodyLines := rest.drop (i + 1)
        (jsTrim (joinWith '\n' bodyLines), parseMeta metaLines)
      | none => (jsTrim raw, {})
    else (jsTrim raw, {})

/-- The character class of `sanitizeSlugSegment`'s keep-set:
`[a-z0-9-]`. -/
def slugAllowed (c : Char) : Bool :=
  ('a' ≤ c ∧ c ≤ 'z') || ('0' ≤ c ∧ c ≤ '9') || c = '-'

/-- Scanner for `collapseRuns`: `inRun` records whether the previous
character belonged to a run of the collapsed class. -/
def collapseRunsGo (p : Char → Bool) (r : Char) (inRun : Bool) : Str → Str
  | [] => []
  | c :: cs =>
    if p c then
      if inRun then collapseRunsGo p r true cs
      else r :: collapseRunsGo p r true cs
    else c :: collapseRunsGo p r false cs

/-- `replace(/X+/g, r)` for a character class `X`: each maximal run of
characters satisfying `p` becomes the single character `r`. -/
def collapseRuns (p : Char → Bool) (r : Char) (s : Str) : Str :=
  collapseRunsGo p r false s

/-- Removes one trailing hyphen (the `-$` alternative of the regex). -/
def stripTrailingHyphen (s : Str) : Str :=
  if s.getLast? = some '-' then s.dropLast else s

/-- `replace(/^-|-$/g, '')`: removes one leading and one trailing
hyphen. -/
def stripEdgeHyphens (s : Str) : Str :=
  stripTrailingHyphen (if s.head? = some '-' then s.tail else s)

/-- `sanitizeSlugSegment`: lowercase, trim, whitespace runs to hyphens,
disallowed characters to hyphens, hyphen runs collapsed, edge hyphens
stripped, empty result replaced by the fallback token `page`. -/
def sanitizeSlugSegment (value : Str) : Str :=
  let step1 := jsTrim (value.map asciiToLower)
  let step2 := collapseRuns jsWhitespace '-' step1
  let step3 := step2.map (fun c => if slugAllowed c then c else '-')
  let step4 := collapseRuns (· = '-') '-' step3
  let step5 := stripEdgeHyphens step4
  if step5 = [] then kw "page" else step5

/-- `sanitizeSlug`: slugs containing `/` keep their directory structure,
each segment sanitized separately and empty segments dropped. -/
def sanitizeSlug (value : Str) : Str :=
  if value.contains '/' then
    joinWith '/' (((splitOnChar '/' value).map sanitizeSlugSegment).filter (· ≠ []))
  else sanitizeSlugSegment value

/-- `sanitizeLang`: lowercase the tag and keep it only when it is a
supported language; anything else falls back to the default language.
(An empty normalized tag is falsy in JS and also falls back.) -/
def sanitizeLang (input : Str) (supportedLangs : List Str) (defaultLang : Str) : Str :=
  let normalized := input.map asciiToLower
  if normalized ≠ [] ∧ supportedLangs.contains normalized then normalized else defaultLang

/-- `isBooleanEnabled`: tri-state flag check (`undefined`/`false` are off,
booleans are themselves, strings count as enabled when they trim-lowercase
to `true`, `yes` or `1`). -/
def isBooleanEnabled (value : Option StrOrBool) : Bool :=
  match value with
  | none => false
  | some (.bool b) => b
  | some (.str s) =>
    let normalized := (jsTrim s).map asciiToLower
    normalized = kw "true" || normalized = kw "yes" || normalized = kw "1"

/-! ## Front-matter lemmas (C9) -/

theorem splitLines_ne_nil (s : Str) : splitLines s ≠ [] := by
  unfold splitLines
  split
  · simp
  · simp
  · simp
  · split <;> simp

theorem findIdx?_none_of_all_false {p : Str → Bool} {l : List Str}
    (h : ∀ x ∈ l, p x = false) : l.findIdx? p = none := by
  induction l with
  | nil => simp
  | cons a t ih =>
    rw [List.findIdx?_cons]
    have ha := h a (List.mem_cons_self a t)
    simp [ha, ih (fun x hx => h x (List.mem_cons_of_mem a hx))]

/-! ## Slug sanitizer lemmas (C10) -/

/-- `noTwo r s`: no two adjacent occurrences of `r` in `s`. -/
def noTwo (r : Char) : Str → Bool
  | a :: b :: t => if a = r ∧ b = r then false else noTwo r (b :: t)
  | _ => true

theorem noTwo_iff_occursB (r : Char) (s : Str) :
    noTwo r s = true ↔ occursB [r, r] s = false := by
  induction s with
  | nil => simp [noTwo, occursB]
  | cons a t ih =>
    cases t with
    | nil => simp [noTwo, occursB, List.isPrefixOf]
    | cons b u =>
      by_cases hab : a = r ∧ b = r
      · obtain ⟨rfl, rfl⟩ := hab
        simp [noTwo, occursB, List.isPrefixOf]
      · have hpre : ([r, r].isPrefixOf (a :: b :: u)) = false := by
          rcases Decidable.not_and_iff_or_not.mp hab with h | h
          · have : (r == a) = false := beq_eq_false_iff_ne.mpr (Ne.symm h)
            simp [List.isPrefixOf, this]
          · have : (r == b) = false := beq_eq_false_iff_ne.mpr (Ne.symm h)
            simp [List.isPrefixOf, this]
        simp only [noTwo, if_neg hab, occursB, hpre, Bool.false_or]
        exact ih

theorem noTwo_tail {r a : Char} {l : Str} (h : noTwo r (a :: l) = true) :
    noTwo r l = true := by
  cases l with
  | nil => simp [noTwo]
  | cons b t =>
    by_cases hab : a = r ∧ b = r
    · simp [noTwo, hab] at h
    · simpa [noTwo, hab] using h

theorem noTwo_cons_iff {r a : Char} {l : Str} :
    noTwo r (a :: l) = true ↔ ((a = r → l.head? ≠ some r) ∧ noTwo r l = true) := by
  cases l with
  | nil => simp [noTwo]
  | cons b t =>
    by_cases hab : a = r ∧ b = r
    · obtain ⟨rfl, rfl⟩ := hab
      simp [noTwo]
    · constructor
      · intro h
        refine ⟨?_, noTwo_tail h⟩
        intro har hb
        exact hab ⟨har, by simpa using hb⟩
      · rintro ⟨h1, h2⟩
        simpa [noTwo, hab] using h2

theorem noTwo_dropLast {r : Char} {l : Str} (h : noTwo r l = true) :
    noTwo r l.dropLast = true := by
  induction l with
  | nil => simp [noTwo]
  | cons a t ih =>
    cases t with
    | nil => simp [noTwo]
    | cons b u =>
      rw [noTwo_cons_iff] at h
      have h2 := ih h.2
      rw [List.dropLast_cons₂, noTwo_cons_iff]
      refine ⟨?_, h2⟩
      intro har hhd
      apply h.1 har
      cases u with
      | nil => simp at hhd
      | cons c v => simpa using hhd

theorem getLast?_dropLast_ne {r : Char} {l : Str} (h : noTwo r l = true)
    (hl : l.getLast? = some r) : l.dropLast.getLast? ≠ some r := by
  induction l with
  | nil => simp at hl
  | cons a t ih =>
    cases t with
    | nil =>
      simp
    | cons b u =>
      rw [noTwo_cons_iff] at h
      rw [List.getLast?_cons_cons] at hl
      rw [List.dropLast_cons₂]
      cases u with
      | nil =>
        simp only [List.dropLast_single]
        have hb : b = r := by simpa using hl
        intro ha
        have ha2 : a = r := by simpa using ha
        exact h.1 ha2 (by simp [hb])
      | cons c v =>
        have hrec := ih h.2 hl
        rw [List.dropLast_cons₂] at hrec ⊢
        rw [List.getLast?_cons_cons]
        exact hrec

theorem head?_dropLast {l : Str} {x : Char} (h : l.dropLast.head? = some x) :
    l.head? = some x := by
  cases l with
  | nil => simp at h
  | cons a t =>
    cases t with
    | nil => simp at h
    | cons b u => simpa [List.dropLast_cons₂] using h

theorem mem_dropLast {l : Str} {c : Char} (h : c ∈ l.dropLast) : c ∈ l := by
  have := List.dropLast_sublist l
  exact this.mem h

/-- Characters of the collapsed string: either the replacement or an
original character outside the collapsed class. -/
theorem mem_collapseRunsGo {p : Char → Bool} {r : Char} {s : Str} {c : Char} :
    ∀ {b : Bool}, c ∈ collapseRunsGo p r b s → c = r ∨ (c ∈ s ∧ p c = false) := by
  induction s with
  | nil => intro b h; simp [collapseRunsGo] at h
  | cons a t ih =>
    intro b h
    by_cases hp : p a
    · cases b with
      | true =>
        simp only [collapseRunsGo, hp, if_true] at h
        rcases ih (by simpa using h) with h1 | ⟨h2, h3⟩
        · exact Or.inl h1
        · exact Or.inr ⟨List.mem_cons_of_mem a h2, h3⟩
      | false =>
        simp only [collapseRunsGo, hp, if_true] at h
        rcases List.mem_cons.mp (by simpa using h) with h1 | h1
        · exact Or.inl h1
        · rcases ih h1 with h2 | ⟨h3, h4⟩
          · exact Or.inl h2
          · exact Or.inr ⟨List.mem_cons_of_mem a h3, h4⟩
    · simp only [collapseRunsGo, hp, if_false] at h
      rcases List.mem_cons.mp h with h1 | h1
      · exact Or.inr ⟨by simp [h1], by simpa [h1] using hp⟩
      · rcases ih h1 with h2 | ⟨h3, h4⟩
        · exact Or.inl h2
        · exact Or.inr ⟨List.mem_cons_of_mem a h3, h4⟩

/-- Inside a run, the next emitted character is outside the class. -/
theorem head?_collapseRunsGo_true {p : Char → Bool} {r : Char} {s : Str} {x : Char}
    (h : (collapseRunsGo p r true s).head? = some x) : p x = false := by
  induction s with
  | nil => simp [collapseRunsGo] at h
  | cons a t ih =>
    by_cases hp : p a
    · exact ih (by simpa [collapseRunsGo, hp] using h)
    · have hxa : a = x := by simpa [collapseRunsGo, hp] using h
      subst hxa
      simpa using hp

/-- Collapsing a class whose replacement belongs to the class never leaves
two adjacent replacement characters. -/
theorem noTwo_collapseRunsGo {p : Char → Bool} {r : Char} (hpr : p r = true)
    (s : Str) : ∀ (b : Bool), noTwo r (collapseRunsGo p r b s) = true := by
  induction s with
  | nil => intro b; simp [collapseRunsGo, noTwo]
  | cons a t ih =>
    intro b
    by_cases hp : p a
    · cases b with
      | true => simpa [collapseRunsGo, hp] using ih true
      | false =>
        simp only [collapseRunsGo, hp, if_true]
        rw [if_neg (by simp), noTwo_cons_iff]
        refine ⟨?_, ih true⟩
        intro _ hhd
        have hc := head?_collapseRunsGo_true hhd
        rw [hpr] at hc
        exact Bool.noConfusion hc
    · have hred : collapseRunsGo p r b (a :: t) = a :: collapseRunsGo p r false t := by
        simp [collapseRunsGo, hp]
      rw [hred, noTwo_cons_iff]
      refine ⟨?_, ih false⟩
      intro har
      rw [har, hpr] at hp
      exact absurd rfl hp

/-- Collapsing is the identity on strings without the class. -/
theorem collapseRunsGo_id {p : Char → Bool} {r : Char} {s : Str}
    (h : ∀ c ∈ s, p c = false) : ∀ b, collapseRunsGo p r b s = s := by
  induction s with
  | nil => intro b; simp [collapseRunsGo]
  | cons a t ih =>
    intro b
    have ha := h a (List.mem_cons_self a t)
    have hred : collapseRunsGo p r b (a :: t) = a :: collapseRunsGo p r false t := by
      simp [collapseRunsGo, ha]
    rw [hred]
    exact congrArg (List.cons a) (ih (fun c hc => h c (List.mem_cons_of_mem a hc)) false)

/-- Collapsing hyphen runs is the identity when no two hyphens are
adjacent (and, inside a run, when the head is not a hyphen). -/
theorem collapseRunsGo_hyphen_id {s : Str} (h : noTwo '-' s = true) :
    ∀ b, (b = true → s.head? ≠ some '-') →
      collapseRunsGo (fun c => c = '-') '-' b s = s := by
  induction s with
  | nil => intro b _; simp [collapseRunsGo]
  | cons a t ih =>
    intro b hb
    by_cases ha : a = '-'
    · subst ha
      cases b with
      | true => exact absurd (show ('-' :: t).head? = some '-' from rfl) (hb rfl)
      | false =>
        have hred : collapseRunsGo (fun c => c = '-') '-' false ('-' :: t) =
            '-' :: collapseRunsGo (fun c => c = '-') '-' true t := by
          simp [collapseRunsGo]
        rw [hred]
        refine congrArg (List.cons '-') (ih (noTwo_tail h) true ?_)
        intro _
        rw [noTwo_cons_iff] at h
        exact h.1 rfl
    · have hred : collapseRunsGo (fun c => c = '-') '-' b (a :: t) =
          a :: collapseRunsGo (fun c => c = '-') '-' false t := by
        simp [collapseRunsGo, ha]
      rw [hred]
      exact congrArg (List.cons a) (ih (noTwo_tail h) false (by simp))

theorem dropWhile_id_of_all_false {p : Char → Bool} {s : Str}
    (h : ∀ c ∈ s, p c = false) : s.dropWhile p = s := by
  cases s with
  | nil => simp
  | cons a t =>
    have := h a (List.mem_cons_self a t)
    simp [List.dropWhile, this]

theorem jsTrim_id_of_no_ws {s : Str}
    (h : ∀ c ∈ s, jsWhitespace c = false) : jsTrim s = s := by
  unfold jsTrim jsTrimStart jsTrimEnd
  rw [dropWhile_id_of_all_false h]
  rw [dropWhile_id_of_all_false (fun c hc => h c (List.mem_reverse.mp hc))]
  exact List.reverse_reverse s

theorem lower_id_of_allowed {c : Char} (h : slugAllowed c = true) :
    asciiToLower c = c := by
  unfold asciiToLower
  rw [if_neg]
  rintro ⟨h1, h2⟩
  simp only [slugAllowed, Bool.or_eq_true, decide_eq_true_eq] at h
  rcases h with (⟨h3, h4⟩ | ⟨h5, h6⟩) | h7
  · exact absurd (le_trans h3 h2) (by decide)
  · exact absurd (le_trans h1 h6) (by decide)
  · rw [h7] at h1; exact absurd h1 (by decide)

theorem ws_false_of_allowed {c : Char} (h : slugAllowed c = true) :
    jsWhitespace c = false := by
  by_contra hws
  rw [Bool.not_eq_false] at hws
  simp only [jsWhitespace, Bool.or_eq_true, decide_eq_true_eq] at hws
  rcases hws with ((((((h1 | h1) | h1) | h1) | h1) | h1) | h1) <;>
    (rw [h1] at h; exact absurd h (by decide))

theorem slash_not_allowed {c : Char} (h : slugAllowed c = true) : c ≠ '/' := by
  intro hc
  subst hc
  simp [slugAllowed] at h

theorem hyphen_allowed : slugAllowed '-' = true := by decide

/-- `CleanSeg`: the shape invariant of sanitized slug segments. -/
def CleanSeg (seg : Str) : Prop :=
  seg ≠ [] ∧ (∀ c ∈ seg, slugAllowed c = true) ∧
  seg.head? ≠ some '-' ∧ seg.getLast? ≠ some '-' ∧
  occursB (kw "--") seg = false

theorem mem_stripTrailingHyphen {s : Str} {c : Char} (h : c ∈ stripTrailingHyphen s) :
    c ∈ s := by
  unfold stripTrailingHyphen at h
  split at h
  · exact mem_dropLast h
  · exact h

theorem mem_stripEdgeHyphens {s : Str} {c : Char} (h : c ∈ stripEdgeHyphens s) :
    c ∈ s := by
  unfold stripEdgeHyphens at h
  have h2 := mem_stripTrailingHyphen h
  split at h2
  · exact List.mem_of_mem_tail h2
  · exact h2

theorem head?_stripTrailingHyphen_ne {s : Str} {x : Char}
    (h : s.head? ≠ some x) : (stripTrailingHyphen s).head? ≠ some x := by
  unfold stripTrailingHyphen
  split
  · intro hcon
    exact h (head?_dropLast hcon)
  · exact h

theorem noTwo_stripTrailingHyphen {s : Str} (h : noTwo '-' s = true) :
    noTwo '-' (stripTrailingHyphen s) = true := by
  unfold stripTrailingHyphen
  split
  · exact noTwo_dropLast h
  · exact h

theorem getLast?_stripTrailingHyphen {s : Str} (h : noTwo '-' s = true) :
    (stripTrailingHyphen s).getLast? ≠ some '-' := by
  unfold stripTrailingHyphen
  split
  · rename_i hlast
    exact getLast?_dropLast_ne h hlast
  · assumption

/-- The tail kept by the leading-hyphen strip. -/
theorem noTwo_stripLead {s : Str} (h : noTwo '-' s = true) :
    noTwo '-' (if s.head? = some '-' then s.tail else s) = true := by
  split
  · cases s with
    | nil => simpa
    | cons a t => exact noTwo_tail h
  · exact h

theorem head?_stripLead_ne {s : Str} (h : noTwo '-' s = true) :
    (if s.head? = some '-' then s.tail else s).head? ≠ some '-' := by
  split
  · rename_i hh
    cases s with
    | nil => simp at hh
    | cons a t =>
      have ha : a = '-' := by simpa using hh
      subst ha
      rw [noTwo_cons_iff] at h
      simpa using h.1 rfl
  · assumption

theorem head?_stripEdgeHyphens {s : Str} (h : noTwo '-' s = true) :
    (stripEdgeHyphens s).head? ≠ some '-' := by
  unfold stripEdgeHyphens
  exact head?_stripTrailingHyphen_ne (head?_stripLead_ne h)

theorem getLast?_stripEdgeHyphens {s : Str} (h : noTwo '-' s = true) :
    (stripEdgeHyphens s).getLast? ≠ some '-' := by
  unfold stripEdgeHyphens
  exact getLast?_stripTrailingHyphen (noTwo_stripLead h)

theorem noTwo_stripEdgeHyphens {s : Str} (h : noTwo '-' s = true) :
    noTwo '-' (stripEdgeHyphens s) = true := by
  unfold stripEdgeHyphens
  exact noTwo_stripTrailingHyphen (noTwo_stripLead h)

theorem stripEdgeHyphens_id {s : Str} (h1 : s.head? ≠ some '-')
    (h2 : s.getLast? ≠ some '-') : stripEdgeHyphens s = s := by
  unfold stripEdgeHyphens stripTrailingHyphen
  rw [if_neg h1, if_neg h2]

theorem CleanSeg_page : CleanSeg (kw "page") := by
  refine ⟨by decide, ?_, by decide, by decide, by decide⟩
  intro c hc
  have : c = 'p' ∨ c = 'a' ∨ c = 'g' ∨ c = 'e' := by
    simpa [kw] using hc
  rcases this with rfl | rfl | rfl | rfl <;> decide

theorem map_id_of_mem {α : Type} {f : α → α} {s : List α} (h : ∀ c ∈ s, f c = c) :
    s.map f = s := by
  induction s with
  | nil => simp
  | cons a t ih =>
    rw [List.map_cons, h a (List.mem_cons_self a t),
      ih (fun c hc => h c (List.mem_cons_of_mem a hc))]

/-- The stripped form of a hyphen-collapsed allowed string is clean. -/
theorem cleanStrip {w : Str} (hall : ∀ c ∈ w, slugAllowed c = true)
    (hnt : noTwo '-' w = true) (hne : stripEdgeHyphens w ≠ []) :
    CleanSeg (stripEdgeHyphens w) :=
  ⟨hne, fun c hc => hall c (mem_stripEdgeHyphens hc),
    head?_stripEdgeHyphens hnt,
    getLast?_stripEdgeHyphens hnt,
    (noTwo_iff_occursB _ _).mp (noTwo_stripEdgeHyphens hnt)⟩

theorem allowed_after_map (l : Str) :
    ∀ c ∈ l.map (fun c => if slugAllowed c then c else '-'), slugAllowed c = true := by
  intro c hc
  rcases List.mem_map.mp hc with ⟨x, _, hx⟩
  by_cases hsa : slugAllowed x
  · rw [if_pos hsa] at hx
    rw [← hx]
    exact hsa
  · rw [if_neg hsa] at hx
    rw [← hx]
    exact hyphen_allowed

theorem allowed_after_collapse {l : Str} (h : ∀ c ∈ l, slugAllowed c = true) :
    ∀ c ∈ collapseRuns (· = '-') '-' l, slugAllowed c = true := by
  intro c hc
  rcases mem_collapseRunsGo hc with rfl | ⟨hc2, _⟩
  · exact hyphen_allowed
  · exact h _ hc2

/-- Every sanitized slug segment satisfies the shape invariant. -/
theorem sanitizeSlugSegment_clean (v : Str) : CleanSeg (sanitizeSlugSegment v) := by
  simp only [sanitizeSlugSegment]
  split
  · exact CleanSeg_page
  · rename_i h5
    exact cleanStrip
      (allowed_after_collapse (allowed_after_map _))
      (noTwo_collapseRunsGo rfl _ false) h5

/-- Sanitizing is the identity on segments that already satisfy the shape
invariant. -/
theorem sanitizeSlugSegment_id {s : Str} (h : CleanSeg s) :
    sanitizeSlugSegment s = s := by
  obtain ⟨hne, hall, hh, hl, hocc⟩ := h
  have hnt : noTwo '-' s = true := (noTwo_iff_occursB _ _).mpr hocc
  simp only [sanitizeSlugSegment]
  have hmap : s.map asciiToLower = s :=
    map_id_of_mem (fun c hc => lower_id_of_allowed (hall c hc))
  rw [hmap]
  have htrim : jsTrim s = s :=
    jsTrim_id_of_no_ws (fun c hc => ws_false_of_allowed (hall c hc))
  rw [htrim]
  have hcoll1 : collapseRuns jsWhitespace '-' s = s :=
    collapseRunsGo_id (fun c hc => ws_false_of_allowed (hall c hc)) false
  rw [hcoll1]
  have hmap2 : s.map (fun c => if slugAllowed c then c else '-') = s :=
    map_id_of_mem (fun c hc => by rw [if_pos (hall c hc)])
  rw [hmap2]
  have hcoll2 : collapseRuns (· = '-') '-' s = s :=
    collapseRunsGo_hyphen_id hnt false (by simp)
  rw [hcoll2]
  rw [stripEdgeHyphens_id hh hl, if_neg hne]

/-! ### split / join lemmas -/

theorem splitOnChar_ne_nil (sep : Char) (s : Str) : splitOnChar sep s ≠ [] := by
  unfold splitOnChar
  split
  · simp
  · split
    · simp
    · split <;> simp

theorem splitOnChar_no_sep {sep : Char} {s : Str} (h : ∀ c ∈ s, c ≠ sep) :
    splitOnChar sep s = [s] := by
  induction s with
  | nil => rfl
  | cons a t ih =>
    have ha := h a (List.mem_cons_self a t)
    have ht := ih (fun c hc => h c (List.mem_cons_of_mem a hc))
    simp only [splitOnChar, if_neg ha, ht]

theorem splitOnChar_append {sep : Char} {x rest : Str} (h : ∀ c ∈ x, c ≠ sep) :
    splitOnChar sep (x ++ sep :: rest) = x :: splitOnChar sep rest := by
  induction x with
  | nil => simp [splitOnChar]
  | cons a t ih =>
    have ha := h a (List.mem_cons_self a t)
    have ht := ih (fun c hc => h c (List.mem_cons_of_mem a hc))
    show splitOnChar sep (a :: (t ++ sep :: rest)) = (a :: t) :: splitOnChar sep rest
    simp only [splitOnChar, if_neg ha]
    rw [ht]

theorem split_join {sep : Char} {segs : List Str} (hne : segs ≠ [])
    (h : ∀ seg ∈ segs, ∀ c ∈ seg, c ≠ sep) :
    splitOnChar sep (joinWith sep segs) = segs := by
  induction segs with
  | nil => exact absurd rfl hne
  | cons x t ih =>
    cases t with
    | nil =>
      simp only [joinWith]
      exact splitOnChar_no_sep (h x (List.mem_cons_self x []))
    | cons y u =>
      have hx := h x (List.mem_cons_self x (y :: u))
      have hrec := ih (by simp) (fun seg hs => h seg (List.mem_cons_of_mem x hs))
      simp only [joinWith] at hrec ⊢
      rw [splitOnChar_append hx, hrec]

theorem contains_iff_mem {l : Str} {a : Char} : l.contains a = true ↔ a ∈ l := by
  induction l with
  | nil => simp [List.contains]
  | cons c cs ih =>
    simp only [List.contains] at ih ⊢
    rw [List.elem_cons]
    by_cases hac : a = c
    · subst hac; simp
    · have : (a == c) = false := beq_eq_false_iff_ne.mpr hac
      simp only [this]
      rw [List.mem_cons]
      constructor
      · intro hel
        exact Or.inr (ih.mp hel)
      · rintro (h1 | h1)
        · exact absurd h1 hac
        · exact ih.mpr h1

theorem split_length_ge_two {sep : Char} {s : Str} (h : s.contains sep = true) :
    2 ≤ (splitOnChar sep s).length := by
  induction s with
  | nil => simp [List.contains] at h
  | cons a t ih =>
    by_cases ha : a = sep
    · rw [ha]
      have hne := splitOnChar_ne_nil sep t
      have hpos : 0 < (splitOnChar sep t).length := List.length_pos.mpr hne
      simp only [splitOnChar]
      rw [if_pos trivial]
      simp only [List.length_cons]
      omega
    · have hmem : sep ∈ a :: t := contains_iff_mem.mp h
      have hmt : sep ∈ t := by
        rcases List.mem_cons.mp hmem with h1 | h1
        · exact absurd h1.symm ha
        · exact h1
      have := ih (contains_iff_mem.mpr hmt)
      simp only [splitOnChar, if_neg ha]
      rcases hsp : splitOnChar sep t with _ | ⟨l, ls⟩
      · exact absurd hsp (splitOnChar_ne_nil sep t)
      · rw [hsp] at this
        simpa using this

theorem joinWith_cons_cons_contains (sep : Char) (x y : Str) (t : List Str) :
    (joinWith sep (x :: y :: t)).contains sep = true := by
  refine contains_iff_mem.mpr ?_
  show sep ∈ x ++ sep :: joinWith sep (y :: t)
  exact List.mem_append_right x (List.mem_cons_self sep _)

theorem filter_ne_nil_id {l : List Str} (h : ∀ x ∈ l, x ≠ []) :
    l.filter (· ≠ []) = l := by
  induction l with
  | nil => rfl
  | cons a t ih =>
    have ha := h a (List.mem_cons_self a t)
    have ht := ih (fun x hx => h x (List.mem_cons_of_mem a hx))
    simp only [List.filter]
    rw [decide_eq_true ha, ht]

/-! ## C9 and C10 claim theorems -/

/-- C9: for every raw document in which no valid front-matter boundary pair
exists (the first line is not a boundary line, or no boundary line occurs
among the later lines), `extractFrontMatter` returns empty metadata and a
body equal to the trimmed original text. -/
theorem extractFrontMatter_no_boundary (raw : Str)
    (h : isBoundaryLine ((splitLines raw).headI) = false ∨
         ∀ l ∈ (splitLines raw).tail, isBoundaryLine l = false) :
    extractFrontMatter raw = (jsTrim raw, {}) := by
  rcases hsp : splitLines raw with _ | ⟨l0, rest⟩
  · exact absurd hsp (splitLines_ne_nil raw)
  · rw [hsp] at h
    simp only [List.headI, List.tail_cons] at h
    unfold extractFrontMatter
    rw [hsp]
    by_cases hb : isBoundaryLine l0
    · rcases h with h | h
      · rw [hb] at h
        exact absurd h (by simp)
      · simp only [hb, if_true, findIdx?_none_of_all_false h]
    · simp only [hb, Bool.false_eq_true, if_false]

/-- Witness for C9 at a concrete document without front matter. -/
theorem extractFrontMatter_no_boundary_witness :
    (isBoundaryLine ((splitLines (kw "hello\nworld ")).headI) = false ∨
      ∀ l ∈ (splitLines (kw "hello\nworld ")).tail, isBoundaryLine l = false) ∧
    extractFrontMatter (kw "hello\nworld ") = (jsTrim (kw "hello\nworld "), {}) :=
  ⟨Or.inl (by decide), extractFrontMatter_no_boundary _ (Or.inl (by decide))⟩

/-- C10: `sanitizeSlug` is idempotent, its result is non-empty, and every
path segment of the result is either the literal fallback token `page` or a
non-empty string of lowercase alphanumerics and hyphens with no leading,
trailing or doubled hyphen. -/
theorem sanitizeSlug_idempotent_and_shape (s : Str) :
    sanitizeSlug (sanitizeSlug s) = sanitizeSlug s ∧
    sanitizeSlug s ≠ [] ∧
    ∀ seg ∈ splitOnChar '/' (sanitizeSlug s),
      seg = kw "page" ∨
      (seg ≠ [] ∧ (∀ c ∈ seg, slugAllowed c = true) ∧
        seg.head? ≠ some '-' ∧ seg.getLast? ≠ some '-' ∧
        occursB (kw "--") seg = false) := by
  by_cases hc : s.contains '/' = true
  · -- the slug carries a directory structure
    have hout : sanitizeSlug s =
        joinWith '/' (((splitOnChar '/' s).map sanitizeSlugSegment).filter (· ≠ [])) := by
      unfold sanitizeSlug
      rw [if_pos hc]
    have hcleanmap : ∀ seg ∈ (splitOnChar '/' s).map sanitizeSlugSegment, CleanSeg seg := by
      intro seg hseg
      rcases List.mem_map.mp hseg with ⟨x, _, hx⟩
      rw [← hx]
      exact sanitizeSlugSegment_clean x
    have hfilter : ((splitOnChar '/' s).map sanitizeSlugSegment).filter (· ≠ []) =
        (splitOnChar '/' s).map sanitizeSlugSegment :=
      filter_ne_nil_id (fun x hx => (hcleanmap x hx).1)
    rw [hfilter] at hout
    have hlen : 2 ≤ ((splitOnChar '/' s).map sanitizeSlugSegment).length := by
      rw [List.length_map]
      exact split_length_ge_two hc
    rcases hsegs : (splitOnChar '/' s).map sanitizeSlugSegment with _ | ⟨x, t⟩
    · rw [hsegs] at hlen; simp at hlen
    · rcases t with _ | ⟨y, u⟩
      · rw [hsegs] at hlen; simp at hlen
      · rw [hsegs] at hcleanmap hout
        rw [hout]
        have hnosep : ∀ seg ∈ x :: y :: u, ∀ c ∈ seg, c ≠ '/' := by
          intro seg hseg c hcm
          exact slash_not_allowed ((hcleanmap seg hseg).2.1 c hcm)
        have hjc : (joinWith '/' (x :: y :: u)).contains '/' = true :=
          joinWith_cons_cons_contains '/' x y u
        have hsplit2 : splitOnChar '/' (joinWith '/' (x :: y :: u)) = x :: y :: u :=
          split_join (by simp) hnosep
        refine ⟨?_, ?_, ?_⟩
        · -- idempotence
          unfold sanitizeSlug
          rw [if_pos hjc, hsplit2]
          have hmapid : (x :: y :: u).map sanitizeSlugSegment = x :: y :: u :=
            map_id_of_mem (fun seg hseg => sanitizeSlugSegment_id (hcleanmap seg hseg))
          rw [hmapid, filter_ne_nil_id (fun seg hseg => (hcleanmap seg hseg).1)]
        · -- non-empty
          intro hnil
          rw [hnil] at hjc
          simp [List.contains] at hjc
        · -- segment shape
          intro seg hseg
          rw [hsplit2] at hseg
          exact Or.inr (hcleanmap seg hseg)
  · -- plain single-segment slug
    have hout : sanitizeSlug s = sanitizeSlugSegment s := by
      unfold sanitizeSlug
      rw [if_neg hc]
    have hclean := sanitizeSlugSegment_clean s
    have hnosl : (sanitizeSlugSegment s).contains '/' = false := by
      by_contra hcon
      rw [Bool.not_eq_false] at hcon
      exact slash_not_allowed (hclean.2.1 _ (contains_iff_mem.mp hcon)) rfl
    refine ⟨?_, ?_, ?_⟩
    · rw [hout]
      unfold sanitizeSlug
      rw [if_neg (by rw [hnosl]; exact Bool.false_ne_true), sanitizeSlugSegment_id hclean]
    · rw [hout]; exact hclean.1
    · intro seg hseg
      rw [hout, splitOnChar_no_sep (fun c hcm => slash_not_allowed (hclean.2.1 c hcm))] at hseg
      have : seg = sanitizeSlugSegment s := by simpa using hseg
      rw [this]
      exact Or.inr hclean

/-! ## Data model (`config.ts`) -/

/-- `PageMeta`: front matter merged with site defaults plus the derived
`slug`, `lang` and `output` fields. -/
structure PageMeta where
  title : Str := []
  description : Str := []
  sidebarTitle : Str := []
  sidebarSummary : Str := []
  backLinkHref : Str := []
  backLinkLabel : Str := []
  slug : Option Str := none
  output : Str := []
  lang : Option Str := none
  translationOf : Option Str := none
  translate : Option StrOrBool := none
  noindex : Option StrOrBool := none
  ogImage : Option Str := none
  twitterImage : Option Str := none
  deriving DecidableEq

/-- The site-wide `defaultMeta` of `BuilderConfig` (the fields a page
cannot override are omitted there). -/
structure DefaultMeta where
  title : Str := []
  description : Str := []
  sidebarTitle : Str := []
  sidebarSummary : Str := []
  backLinkHref : Str := []
  backLinkLabel : Str := []
  ogImage : Option Str := none
  twitterImage : Option Str := none
  deriving DecidableEq

/-- `RenderPlan`: the per-document unit of work. -/
structure RenderPlan where
  sourcePath : Str := []
  outputPath : Str := []
  relativeOutput : Str := []
  html : Str := []
  meta : PageMeta := {}
  deriving DecidableEq

/-- `iAlternateLink`. -/
structure ALink where
  lang : Str
  href : Str
  deriving DecidableEq

/-! ## JS `Map` with string keys, as an insertion-ordered association
list: `set` updates an existing key in place and appends a fresh key. -/

def mapSet {α : Type} (m : List (Str × α)) (k : Str) (v : α) : List (Str × α) :=
  if m.any (fun p => p.1 = k) then
    m.map (fun p => if p.1 = k then (k, v) else p)
  else m ++ [(k, v)]

def mapGet {α : Type} (m : List (Str × α)) (k : Str) : Option α :=
  (m.find? (fun p => p.1 = k)).map (fun p => p.2)

/-! ## Node `path` (POSIX flavour), for the path fragments the builder
uses.  Paths are normalized segment-wise; the builder only ever feeds these
helpers absolute directories and slash-separated relative paths. -/

/-- The non-empty `/`-separated segments of a path. -/
def pathSegs (p : Str) : List Str :=
  (splitOnChar '/' p).filter (· ≠ [])

/-- Resolution of `.` and `..` segments (`path.normalize` core).  For
absolute paths surplus `..` segments are dropped at the root. -/
def normSegs (isAbs : Bool) (segs : List Str) : List Str :=
  segs.foldl
    (fun acc seg =>
      if seg = kw "." then acc
      else if seg = kw ".." then
        if acc ≠ [] ∧ acc.getLast? ≠ some (kw "..") then acc.dropLast
        else if isAbs then acc else acc ++ [seg]
      else acc ++ [seg])
    []

/-- `path.normalize` (without trailing-slash preservation, which no caller
below depends on: the builder never hands it a trailing slash). -/
def pathNormalize (p : Str) : Str :=
  let isAbs := p.head? = some '/'
  let ns := normSegs isAbs (pathSegs p)
  if ns = [] then (if isAbs then kw "/" else kw ".")
  else if isAbs then '/' :: joinWith '/' ns else joinWith '/' ns

/-- `path.join(...)`: empty parts are ignored, the rest joined with `/`
and normalized; an all-empty join is `.`. -/
def pathJoin (parts : List Str) : Str :=
  let joined := joinWith '/' (parts.filter (· ≠ []))
  if joined = [] then kw "." else pathNormalize joined

/-- `path.dirname` for paths without redundant slashes (the only inputs it
receives here). -/
def pathDirname (p : Str) : Str :=
  let isAbs := p.head? = some '/'
  match (pathSegs p).dropLast with
  | [] => if isAbs then kw "/" else kw "."
  | ds => if isAbs then '/' :: joinWith '/' ds else joinWith '/' ds

/-- `path.basename`. -/
def pathBasename (p : Str) : Str :=
  ((pathSegs p).getLast?).getD []

/-- Length of the longest common prefix of two segment lists. -/
def commonPrefixLen : List Str → List Str → Nat
  | x :: xs, y :: ys => if x = y then commonPrefixLen xs ys + 1 else 0
  | _, _ => 0

/-- `path.relative(from, to)` for absolute `from`/`to` (the builder always
resolves both sides first). -/
def pathRelative (f t : Str) : Str :=
  let fs := normSegs true (pathSegs f)
  let ts := normSegs true (pathSegs t)
  let common := commonPrefixLen fs ts
  joinWith '/' (List.replicate (fs.length - common) (kw "..") ++ ts.drop common)

/-- `path.resolve(p)` for an absolute `p` (every call below passes an
absolute path, so no working directory is involved). -/
def pathResolveAbs (p : Str) : Str := pathNormalize p

/-- `path.resolve(base, rel)` with an absolute `base`: `rel` wins when it
is itself absolute.  Node's resolve drops a trailing slash. -/
def pathResolveFrom (base rel : Str) : Str :=
  let r := if rel.head? = some '/' then pathNormalize rel
           else pathNormalize (base ++ '/' :: rel)
  if r ≠ kw "/" ∧ r.getLast? = some '/' then r.dropLast else r

/-! ## `src/utils.ts` helpers

`stripHtmlExtension` and `normalizeIndexUrl` are translated from the
utils revision staged in the sources (the utils chunk of
`markdown.test.ts`, also `part_005`); `extractSlugFromPath` and
`normalizePathSeparators` appear in no staged source file and are
modelled from the spec, their behaviour pinned down by
`utils.test.ts`. -/

/-- `stripHtmlExtension`: `url.replace(/\.html?$/i, '')` — drops a
trailing `.html`, or else a trailing `.htm`, case-insensitively. -/
def stripHtmlExtension (p : Str) : Str :=
  if (kw ".html").isSuffixOf (p.map asciiToLower) then p.take (p.length - 5)
  else if (kw ".htm").isSuffixOf (p.map asciiToLower) then p.take (p.length - 4)
  else p

/-- `normalizeIndexUrl`: `path.replace(/\/index$/, '').replace(/^index$/, '')`
— first drops a trailing `/index`, then maps an exact `index` remainder
to the empty string. -/
def normalizeIndexUrl (p : Str) : Str :=
  let step1 := if (kw "/index").isSuffixOf p then p.take (p.length - 6) else p
  if step1 = kw "index" then [] else step1

/-- Modelled from the spec: `extractSlugFromPath` (missing `src/utils.ts`)
is the file name without its `.md` extension (§4.2 "the file name without
extension"; `utils.test.ts`: `/path/to/page.md ↦ page`). -/
def extractSlugFromPath (p : Str) : Str :=
  let base := pathBasename p
  if (kw ".md").isSuffixOf base then base.take (base.length - 3) else base

/-- Modelled from the spec: `normalizePathSeparators` (missing
`src/utils.ts`) rewrites Windows backslashes to forward slashes
(`utils.test.ts`). -/
def normalizePathSeparators (p : Str) : Str :=
  p.map (fun c => if c = '\\' then '/' else c)

/-! ## `src/sitemap.ts` -/

/-- The canonical grouping key: `translationOf ?? slug ?? 'page'`. -/
def groupKeyOf (plan : RenderPlan) : Str :=
  plan.meta.translationOf.getD (plan.meta.slug.getD (kw "page"))

/-- One step of `groupByTranslation`'s reduce. -/
def groupStep (m : List (Str × List RenderPlan)) (plan : RenderPlan) :
    List (Str × List RenderPlan) :=
  mapSet m (groupKeyOf plan) ((mapGet m (groupKeyOf plan)).getD [] ++ [plan])

/-- `groupByTranslation`: cluster the plans by canonical key into an
insertion-ordered map. -/
def groupByTranslation (plans : List RenderPlan) : List (Str × List RenderPlan) :=
  plans.foldl groupStep []

/-- `resolveCanonicalRelative`: note that the reference language is the
requesting plan's own language (`plan.meta.lang ?? 'en'`), not the site
default. -/
def resolveCanonicalRelative (plan : RenderPlan)
    (groups : List (Str × List RenderPlan)) : Str :=
  let group := (mapGet groups (groupKeyOf plan)).getD [plan]
  let defaultLang := plan.meta.lang.getD (kw "en")
  match group.find? (fun entry => entry.meta.lang = some defaultLang) with
  | some english => english.relativeOutput
  | none => plan.relativeOutput

/-- `Number.MAX_SAFE_INTEGER`. -/
def MAX_SAFE_INTEGER : Int := 9007199254740991

/-- `String.prototype.localeCompare`, modelled as code-point lexicographic
comparison.  (Real locale collation can order distinct strings
differently; every property proved below depends only on it being a
linear comparison that is `0` exactly on equal strings.) -/
def jsLocaleCompare : Str → Str → Int
  | [], [] => 0
  | [], _ :: _ => -1
  | _ :: _, [] => 1
  | a :: as, b :: bs =>
    if a < b then -1 else if b < a then 1 else jsLocaleCompare as bs

/-- Insertion step of a stable comparator sort. -/
def insertSorted {α : Type} (cmp : α → α → Int) (x : α) : List α → List α
  | [] => [x]
  | y :: ys => if cmp x y < 0 then x :: y :: ys else y :: insertSorted cmp x ys

/-- `Array.prototype.sort` (required stable), as a stable insertion
sort. -/
def jsSort {α : Type} (cmp : α → α → Int) (l : List α) : List α :=
  l.foldl (fun acc x => insertSorted cmp x acc) []

/-- The index a language receives in `new Map(supportedLangs.map((lang,
index) => [lang, index]))`: duplicate keys keep the *last* index. -/
def lastIndexIn (xs : List Str) (k : Str) : Option Nat :=
  match xs with
  | [] => none
  | x :: rest =>
    match lastIndexIn rest k with
    | some i => some (i + 1)
    | none => if x = k then some 0 else none

/-- The comparator of `sortAlternates`. -/
def alternatesCmp (order : Str → Option Nat) (a b : ALink) : Int :=
  let aOrder := ((order a.lang).map Int.ofNat).getD MAX_SAFE_INTEGER
  let bOrder := ((order b.lang).map Int.ofNat).getD MAX_SAFE_INTEGER
  if aOrder = bOrder then jsLocaleCompare a.lang b.lang else aOrder - bOrder

/-- `sortAlternates`: default language first, then the list order of the
languages as they appear among the links themselves. -/
def sortAlternates (links : List ALink) (defaultLang : Str) : List ALink :=
  let supportedLangs :=
    defaultLang :: (links.map (fun l => l.lang)).filter (fun l => l ≠ defaultLang)
  jsSort (alternatesCmp (lastIndexIn supportedLangs)) links

/-- `buildAlternateLinks`; `toAbs` stands for
`toAbsoluteUrl(·, baseUrl)` (WHATWG URL resolution is outside the
model). -/
def buildAlternateLinks (toAbs : Str → Str) (plan : RenderPlan)
    (groups : List (Str × List RenderPlan)) (defaultLang : Str) : List ALink :=
  let group := (mapGet groups (groupKeyOf plan)).getD [plan]
  let links := group.map (fun entry =>
    { lang := entry.meta.lang.getD defaultLang,
      href := toAbs (normalizeIndexUrl (stripHtmlExtension entry.relativeOutput)) : ALink })
  let canonicalRelative :=
    normalizeIndexUrl (stripHtmlExtension (resolveCanonicalRelative plan groups))
  sortAlternates links defaultLang ++
    [{ lang := kw "x-default", href := toAbs canonicalRelative }]

/-- `isNoindexEnabled`. -/
def isNoindexEnabled (meta : PageMeta) : Bool := isBooleanEnabled meta.noindex

/-- One step of `writeSitemap`'s deduplication loop. -/
def uniqueStep (m : List (Str × RenderPlan)) (plan : RenderPlan) :
    List (Str × RenderPlan) :=
  mapSet m plan.relativeOutput plan

/-- The deduplication map of `writeSitemap`
(`plans.forEach((plan) => unique.set(plan.relativeOutput, plan))`). -/
def uniqueByOutput (plans : List RenderPlan) : List (Str × RenderPlan) :=
  plans.foldl uniqueStep []

/-- The plans that become sitemap `<url>` entries, in emission order:
deduplicated by output (last write wins), noindex excluded, sorted by
output path. -/
def sitemapEntryPlans (plans : List RenderPlan) : List RenderPlan :=
  jsSort (fun a b => jsLocaleCompare a.relativeOutput b.relativeOutput)
    (((uniqueByOutput plans).map (fun p => p.2)).filter
      (fun plan => !isNoindexEnabled plan.meta))

/-- The data of one emitted `<url>` row: the location plus the non
`x-default` alternates. -/
def sitemapRow (toAbs : Str → Str) (groups : List (Str × List RenderPlan))
    (defaultLang : Str) (plan : RenderPlan) : Str × List ALink :=
  (toAbs (normalizeIndexUrl (stripHtmlExtension plan.relativeOutput)),
   (buildAlternateLinks toAbs plan groups defaultLang).filter
     (fun alt => alt.lang ≠ kw "x-default"))

/-- The rows of the generated sitemap, in order. -/
def sitemapRows (toAbs : Str → Str) (plans : List RenderPlan)
    (defaultLang : Str) (groups : List (Str × List RenderPlan)) :
    List (Str × List ALink) :=
  (sitemapEntryPlans plans).map (sitemapRow toAbs groups defaultLang)

/-- The XML fragment of one `<url>` element (the `filter(Boolean)` of the
source drops the alternate-link block when it is empty). -/
def sitemapUrlXml (row : Str × List ALink) : Str :=
  let altLinks :=
    if row.2 = [] then []
    else joinWith '\n' (row.2.map (fun alt =>
      kw "    <xhtml:link rel=\"alternate\" hreflang=\"" ++ alt.lang ++
      kw "\" href=\"" ++ alt.href ++ kw "\" />"))
  joinWith '\n'
    ([kw "  <url>", kw "    <loc>" ++ row.1 ++ kw "</loc>"] ++
     (if altLinks = [] then [] else [altLinks]) ++ [kw "  </url>"])

/-- The full `sitemap.xml` text written by `writeSitemap`. -/
def sitemapXml (toAbs : Str → Str) (plans : List RenderPlan)
    (defaultLang : Str) (groups : List (Str × List RenderPlan)) : Str :=
  kw "<?xml version=\"1.0\" encoding=\"UTF-8\"?>\n" ++
  kw "<urlset xmlns=\"http://www.sitemaps.org/schemas/sitemap/0.9\" xmlns:xhtml=\"http://www.w3.org/1999/xhtml\">\n" ++
  joinWith '\n' ((sitemapRows toAbs plans defaultLang groups).map sitemapUrlXml) ++
  kw "\n</urlset>\n"

/-! ## `src/builder.ts` (`createPlan` and the pure part of `build`)

The effective `createPlan` is the directory-preserving one (the one
exercised by `builder.test.ts` and documented in the README): output =
source directory joined with `slug.html`, or the slug itself (plus
`.html`) when the slug carries path separators.  The markdown renderer
and the mailto/UTM HTML post-passes are external to this model and enter
as the opaque function parameters `render`, `obf` and `utm`. -/

/-- `inferLangFromPath`: the first path segment when it is a supported
language, else the default. -/
def inferLangFromPath (relativeSource : Str) (supportedLangs : List Str)
    (defaultLang : Str) : Str :=
  let maybeLang := ((splitOnChar '/' relativeSource).head?).getD []
  if supportedLangs.contains maybeLang then maybeLang else defaultLang

/-- `createPlan` (pure core; `raw` is the file's content). -/
def createPlan (dm : DefaultMeta) (render obf utm : Str → Str)
    (contentDir outputDir : Str) (defaultLang : Str) (supportedLangs : List Str)
    (filePath raw : Str) : RenderPlan :=
  let sourcePath := pathResolveAbs filePath
  let relativeSource := pathRelative contentDir sourcePath
  let bm := extractFrontMatter raw
  let body := bm.1
  let meta := bm.2
  let lang := sanitizeLang
    (meta.lang.getD (inferLangFromPath relativeSource supportedLangs defaultLang))
    supportedLangs defaultLang
  let slug := sanitizeSlug (meta.slug.getD (extractSlugFromPath filePath))
  let relativeDir := pathDirname relativeSource
  let outputName :=
    if slug.contains '/' then normalizePathSeparators (slug ++ kw ".html")
    else if relativeDir ≠ kw "." then
      normalizePathSeparators (pathJoin [relativeDir, slug ++ kw ".html"])
    else slug ++ kw ".html"
  let outputPath := pathJoin (outputDir :: splitOnChar '/' outputName)
  let mergedMeta : PageMeta :=
    { title := (meta.title.getD dm.title)
      description := (meta.description.getD dm.description)
      sidebarTitle := (meta.sidebarTitle.getD dm.sidebarTitle)
      sidebarSummary := (meta.sidebarSummary.getD dm.sidebarSummary)
      backLinkHref := (meta.backLinkHref.getD dm.backLinkHref)
      backLinkLabel := (meta.backLinkLabel.getD dm.backLinkLabel)
      slug := some slug
      output := outputName
      lang := some lang
      translationOf := meta.translationOf
      translate := meta.translate
      noindex := meta.noindex
      ogImage := (match meta.ogImage with | some v => some v | none => dm.ogImage)
      twitterImage := (match meta.twitterImage with | some v => some v | none => dm.twitterImage) }
  { sourcePath := sourcePath
    outputPath := outputPath
    relativeOutput := outputName
    html := utm (obf (render body))
    meta := mergedMeta }

/-- The pure plan-construction phase of `build`: one `RenderPlan` per
markdown file, in traversal order.  `docs` pairs each file path with its
raw content.  No output-collision check exists anywhere downstream. -/
def buildPlans (dm : DefaultMeta) (render obf utm : Str → Str)
    (contentDir outputDir : Str) (defaultLang : Str) (supportedLangs : List Str)
    (docs : List (Str × Str)) : List RenderPlan :=
  docs.map (fun d =>
    createPlan dm render obf utm contentDir outputDir defaultLang supportedLangs d.1 d.2)

/-! ## JS `Map` lemmas -/

theorem mapGet_mapSet_self {α : Type} (m : List (Str × α)) (k : Str) (v : α) :
    mapGet (mapSet m k v) k = some v := by
  unfold mapSet mapGet
  by_cases hany : m.any (fun p => p.1 = k) = true
  · rw [if_pos hany]
    induction m with
    | nil => simp at hany
    | cons e t ih =>
      by_cases he : e.1 = k
      · simp [List.find?, he]
      · have hany2 : t.any (fun p => p.1 = k) = true := by
          rcases List.any_eq_true.mp hany with ⟨x, hx, hpx⟩
          rcases List.mem_cons.mp hx with rfl | hx2
          · exact absurd (of_decide_eq_true hpx) he
          · exact List.any_eq_true.mpr ⟨x, hx2, hpx⟩
        have hrec := ih hany2
        simp only [List.map_cons, if_neg he, List.find?]
        rw [decide_eq_false he]
        exact hrec
  · rw [if_neg hany]
    induction m with
    | nil => simp [List.find?]
    | cons e t ih =>
      have he : ¬(e.1 = k) := by
        intro hk
        exact hany (List.any_eq_true.mpr ⟨e, List.mem_cons_self e t, decide_eq_true hk⟩)
      have hany2 : ¬(t.any (fun p => p.1 = k) = true) := by
        intro hk
        rcases List.any_eq_true.mp hk with ⟨x, hx, hpx⟩
        exact hany (List.any_eq_true.mpr ⟨x, List.mem_cons_of_mem e hx, hpx⟩)
      have hrec := ih hany2
      simp only [List.cons_append, List.find?]
      rw [decide_eq_false he]
      exact hrec

theorem mapGet_mapSet_ne {α : Type} (m : List (Str × α)) (k k' : Str) (v : α)
    (h : k' ≠ k) : mapGet (mapSet m k v) k' = mapGet m k' := by
  unfold mapSet mapGet
  by_cases hany : m.any (fun p => p.1 = k) = true
  · rw [if_pos hany]
    clear hany
    induction m with
    | nil => simp
    | cons e t ih =>
      by_cases he : e.1 = k
      · have hek : decide (e.1 = k') = false := by
          rw [he]; exact decide_eq_false (fun hk => h hk.symm)
        have hkk : decide (k = k') = false := decide_eq_false (fun hk => h hk.symm)
        simp only [List.map_cons, if_pos he, List.find?, hek, hkk]
        exact ih
      · cases hd : decide (e.1 = k') with
        | true => simp only [List.map_cons, if_neg he, List.find?, hd]
        | false =>
          simp only [List.map_cons, if_neg he, List.find?, hd]
          exact ih
  · rw [if_neg hany]
    clear hany
    induction m with
    | nil =>
      have hkk : decide (k = k') = false := decide_eq_false (fun hk => h hk.symm)
      simp only [List.nil_append, List.find?, hkk]
    | cons e t ih =>
      cases hd : decide (e.1 = k') with
      | true => simp only [List.cons_append, List.find?, hd]
      | false =>
        simp only [List.cons_append, List.find?, hd]
        exact ih

/-! ## `jsLocaleCompare` lemmas -/

theorem jsLocaleCompare_eq_zero_iff {a b : Str} : jsLocaleCompare a b = 0 ↔ a = b := by
  induction a generalizing b with
  | nil => cases b <;> simp [jsLocaleCompare]
  | cons x xs ih =>
    cases b with
    | nil => simp [jsLocaleCompare]
    | cons y ys =>
      by_cases hxy : x < y
      · simp only [jsLocaleCompare, if_pos hxy]
        constructor
        · intro h; exact absurd h (by decide)
        · rintro h
          injection h with h1 h2
          exact absurd hxy (by rw [h1]; exact lt_irrefl y)
      · by_cases hyx : y < x
        · simp only [jsLocaleCompare, if_neg hxy, if_pos hyx]
          constructor
          · intro h; exact absurd h (by decide)
          · rintro h
            injection h with h1 h2
            exact absurd hyx (by rw [h1]; exact lt_irrefl y)
        · have hxyeq : x = y := le_antisymm (not_lt.mp hyx) (not_lt.mp hxy)
          subst hxyeq
          simp only [jsLocaleCompare, if_neg hxy, if_neg hyx]
          rw [ih]
          constructor
          · rintro rfl; rfl
          · intro h; injection h

theorem jsLocaleCompare_flip (a b : Str) : jsLocaleCompare a b = -(jsLocaleCompare b a) := by
  induction a generalizing b with
  | nil => cases b <;> simp [jsLocaleCompare]
  | cons x xs ih =>
    cases b with
    | nil => simp [jsLocaleCompare]
    | cons y ys =>
      by_cases hxy : x < y
      · have hyx : ¬(y < x) := fun h => absurd (lt_trans hxy h) (lt_irrefl x)
        simp [jsLocaleCompare, hxy, hyx]
      · by_cases hyx : y < x
        · simp [jsLocaleCompare, hxy, hyx]
        · simp only [jsLocaleCompare, if_neg hxy, if_neg hyx]
          exact ih ys

theorem jsLocaleCompare_lt_trans {a b c : Str}
    (h1 : jsLocaleCompare a b < 0) (h2 : jsLocaleCompare b c < 0) :
    jsLocaleCompare a c < 0 := by
  induction a generalizing b c with
  | nil =>
    cases b with
    | nil => exact absurd h1 (by simp [jsLocaleCompare])
    | cons y ys =>
      cases c with
      | nil => exact absurd h2 (by simp [jsLocaleCompare])
      | cons z zs => simp [jsLocaleCompare]
  | cons x xs ih =>
    cases b with
    | nil => exact absurd h1 (by simp [jsLocaleCompare])
    | cons y ys =>
      cases c with
      | nil => exact absurd h2 (by simp [jsLocaleCompare])
      | cons z zs =>
        simp only [jsLocaleCompare] at h1 h2 ⊢
        by_cases hxy : x < y
        · by_cases hyz : y < z
          · rw [if_pos (lt_trans hxy hyz)]; decide
          · by_cases hzy : z < y
            · rw [if_neg hyz, if_pos hzy] at h2
              exact absurd h2 (by decide)
            · have : y = z := le_antisymm (not_lt.mp hzy) (not_lt.mp hyz)
              subst this
              rw [if_pos hxy]; decide
        · by_cases hyx : y < x
          · rw [if_neg hxy, if_pos hyx] at h1
            exact absurd h1 (by decide)
          · have : x = y := le_antisymm (not_lt.mp hyx) (not_lt.mp hxy)
            subst this
            rw [if_neg hxy, if_neg hyx] at h1
            by_cases hxz : x < z
            · rw [if_pos hxz]; decide
            · by_cases hzx : z < x
              · rw [if_neg hxz, if_pos hzx] at h2
                exact absurd h2 (by decide)
              · rw [if_neg hxz, if_neg hzx] at h2 ⊢
                exact ih h1 h2

theorem jsLocaleCompare_le_trans {a b c : Str}
    (h1 : jsLocaleCompare a b ≤ 0) (h2 : jsLocaleCompare b c ≤ 0) :
    jsLocaleCompare a c ≤ 0 := by
  rcases lt_or_eq_of_le h1 with h1' | h1'
  · rcases lt_or_eq_of_le h2 with h2' | h2'
    · exact le_of_lt (jsLocaleCompare_lt_trans h1' h2')
    · rw [jsLocaleCompare_eq_zero_iff.mp h2'] at h1
      exact h1
  · rw [← jsLocaleCompare_eq_zero_iff.mp h1'] at h2
    exact h2

/-! ## `jsSort` lemmas: permutation, sortedness, and uniqueness of the
sorted order when the comparator has no ties on the listed elements. -/

theorem insertSorted_perm {α : Type} (cmp : α → α → Int) (x : α) (l : List α) :
    List.Perm (insertSorted cmp x l) (x :: l) := by
  induction l with
  | nil => simp [insertSorted]
  | cons y ys ih =>
    unfold insertSorted
    split
    · exact List.Perm.refl _
    · exact List.Perm.trans (List.Perm.cons y ih) (List.Perm.swap x y ys)

theorem jsSortAux_perm {α : Type} (cmp : α → α → Int) (l : List α) :
    ∀ acc, List.Perm (l.foldl (fun acc x => insertSorted cmp x acc) acc) (acc ++ l) := by
  induction l with
  | nil => intro acc; simp
  | cons x xs ih =>
    intro acc
    have h1 := ih (insertSorted cmp x acc)
    have h2 : List.Perm (insertSorted cmp x acc ++ xs) ((x :: acc) ++ xs) :=
      (insertSorted_perm cmp x acc).append_right xs
    have h3 : List.Perm ((x :: acc) ++ xs) (acc ++ x :: xs) := List.perm_middle.symm
    exact (h1.trans h2).trans h3

theorem jsSort_perm {α : Type} (cmp : α → α → Int) (l : List α) :
    List.Perm (jsSort cmp l) l := by
  simpa using jsSortAux_perm cmp l []

theorem insertSorted_head {α : Type} (cmp : α → α → Int) (x : α) (l : List α) :
    (insertSorted cmp x l).head? = some x ∨ (insertSorted cmp x l).head? = l.head? := by
  cases l with
  | nil => left; rfl
  | cons y ys =>
    unfold insertSorted
    split
    · left; rfl
    · right; rfl

theorem chain'_insertSorted {α : Type} {cmp : α → α → Int}
    (hconn : ∀ a b, ¬(cmp a b < 0) → cmp b a ≤ 0) (x : α) {l : List α}
    (hc : List.Chain' (fun a b => cmp a b ≤ 0) l) :
    List.Chain' (fun a b => cmp a b ≤ 0) (insertSorted cmp x l) := by
  induction l with
  | nil => simp [insertSorted]
  | cons y ys ih =>
    unfold insertSorted
    split
    · rename_i hxy
      refine List.chain'_cons'.mpr ⟨?_, hc⟩
      intro z hz
      have hyz : y = z := by simpa using hz
      subst hyz
      exact le_of_lt hxy
    · rename_i hxy
      refine List.chain'_cons'.mpr ⟨?_, ih hc.tail⟩
      intro z hz
      rcases insertSorted_head cmp x ys with hh | hh
      · rw [hh] at hz
        have hxz : x = z := by simpa using hz
        subst hxz
        exact hconn x y hxy
      · rw [hh] at hz
        exact (List.chain'_cons'.mp hc).1 z hz

theorem chain'_jsSortAux {α : Type} {cmp : α → α → Int}
    (hconn : ∀ a b, ¬(cmp a b < 0) → cmp b a ≤ 0) (l : List α) :
    ∀ acc, List.Chain' (fun a b => cmp a b ≤ 0) acc →
      List.Chain' (fun a b => cmp a b ≤ 0)
        (l.foldl (fun acc x => insertSorted cmp x acc) acc) := by
  induction l with
  | nil => intro acc hacc; exact hacc
  | cons x xs ih =>
    intro acc hacc
    exact ih _ (chain'_insertSorted hconn x hacc)

theorem chain'_jsSort {α : Type} {cmp : α → α → Int}
    (hconn : ∀ a b, ¬(cmp a b < 0) → cmp b a ≤ 0) (l : List α) :
    List.Chain' (fun a b => cmp a b ≤ 0) (jsSort cmp l) :=
  chain'_jsSortAux hconn l [] List.chain'_nil

/-- Two comparator-sorted permutations of the same elements are equal when
the comparator admits no ties among those elements. -/
theorem eq_of_perm_of_chain' {α : Type} {R : α → α → Prop} [IsTrans α R]
    {l₁ l₂ : List α} (hp : List.Perm l₁ l₂)
    (hc1 : List.Chain' R l₁) (hc2 : List.Chain' R l₂)
    (hanti : ∀ a ∈ l₁, ∀ b ∈ l₁, R a b → R b a → a = b) :
    l₁ = l₂ := by
  induction l₁ generalizing l₂ with
  | nil => simpa using hp.nil_eq
  | cons a t ih =>
    have hpw1 : List.Pairwise R (a :: t) := List.chain'_iff_pairwise.mp hc1
    cases l₂ with
    | nil => exact absurd hp.symm.nil_eq (by simp)
    | cons b u =>
      have hpw2 : List.Pairwise R (b :: u) := List.chain'_iff_pairwise.mp hc2
      have hab : a = b := by
        by_cases h : a = b
        · exact h
        · have hbmem : b ∈ a :: t := hp.symm.subset (List.mem_cons_self b u)
          have hamem : a ∈ b :: u := hp.subset (List.mem_cons_self a t)
          have hbt : b ∈ t := by
            rcases List.mem_cons.mp hbmem with h1 | h1
            · exact absurd h1.symm h
            · exact h1
          have hau : a ∈ u := by
            rcases List.mem_cons.mp hamem with h1 | h1
            · exact absurd h1 h
            · exact h1
          have hRab : R a b := (List.pairwise_cons.mp hpw1).1 b hbt
          have hRba : R b a := (List.pairwise_cons.mp hpw2).1 a hau
          exact hanti a (List.mem_cons_self a t) b hbmem hRab hRba
      subst hab
      have hpt : List.Perm t u := hp.cons_inv
      have ht : t = u := by
        refine ih hpt ?_ ?_ ?_
        · exact (List.chain'_cons'.mp hc1).2
        · exact (List.chain'_cons'.mp hc2).2
        · intro x hx y hy
          exact hanti x (List.mem_cons_of_mem a hx) y (List.mem_cons_of_mem a hy)
      rw [ht]

/-! ## Translation-group lemmas and C2 -/

theorem groupFold_get (plans : List RenderPlan) :
    ∀ (m : List (Str × List RenderPlan)) (k : Str),
      mapGet (plans.foldl groupStep m) k =
        (match mapGet m k with
         | some base => some (base ++ plans.filter (fun p => groupKeyOf p = k))
         | none =>
           if plans.filter (fun p => groupKeyOf p = k) = [] then none
           else some (plans.filter (fun p => groupKeyOf p = k))) := by
  induction plans with
  | nil =>
    intro m k
    cases h : mapGet m k <;> simp [h]
  | cons p ps ih =>
    intro m k
    have hstep : (p :: ps).foldl groupStep m = ps.foldl groupStep (groupStep m p) := rfl
    rw [hstep, ih]
    by_cases hk : groupKeyOf p = k
    · subst hk
      unfold groupStep
      rw [mapGet_mapSet_self]
      rw [List.filter_cons_of_pos (by simp)]
      cases hm : mapGet m (groupKeyOf p) with
      | none => simp
      | some base => simp [hm]
    · unfold groupStep
      rw [mapGet_mapSet_ne _ _ _ _ (fun he => hk he.symm)]
      rw [List.filter_cons_of_neg (by simpa using hk)]

theorem groupByTranslation_get (plans : List RenderPlan) (k : Str) :
    mapGet (groupByTranslation plans) k =
      (if plans.filter (fun p => groupKeyOf p = k) = [] then none
       else some (plans.filter (fun p => groupKeyOf p = k))) := by
  have h := groupFold_get plans [] k
  unfold groupByTranslation
  rw [h]
  rfl

/-- The canonical resolution as the spec describes it: the output of the
group member whose language equals the *site* default language, falling
back to the requesting plan when no such member exists. -/
def specCanonicalRelative (siteDefaultLang : Str) (plan : RenderPlan)
    (groups : List (Str × List RenderPlan)) : Str :=
  let group := (mapGet groups (groupKeyOf plan)).getD [plan]
  match group.find? (fun entry => entry.meta.lang = some siteDefaultLang) with
  | some entry => entry.relativeOutput
  | none => plan.relativeOutput

/-- The English/French plan pair of `sitemap.test.ts`. -/
def cexEnPlan : RenderPlan :=
  { sourcePath := kw "/content/page.md"
    outputPath := kw "/docs/page.html"
    relativeOutput := kw "page.html"
    html := kw "<p>Content</p>"
    meta := { slug := some (kw "page"), lang := some (kw "en"),
              output := kw "page.html", translationOf := some (kw "page") } }

def cexFrPlan : RenderPlan :=
  { sourcePath := kw "/content/fr/page.md"
    outputPath := kw "/docs/fr/page.html"
    relativeOutput := kw "fr/page.html"
    html := kw "<p>Contenu</p>"
    meta := { slug := some (kw "page"), lang := some (kw "fr"),
              output := kw "fr/page.html", translationOf := some (kw "page") } }

/-- C2 (counterexample): with site default language `en` and a group
holding an English and a French variant, the canonical relative output the
code computes for the French plan is the French plan's own output, even
though a default-language member exists; the spec's rule would give the
English output. -/
theorem resolveCanonicalRelative_counterexample :
    resolveCanonicalRelative cexFrPlan (groupByTranslation [cexEnPlan, cexFrPlan]) =
      kw "fr/page.html" ∧
    specCanonicalRelative (kw "en") cexFrPlan (groupByTranslation [cexEnPlan, cexFrPlan]) =
      kw "page.html" ∧
    resolveCanonicalRelative cexFrPlan (groupByTranslation [cexEnPlan, cexFrPlan]) ≠
      specCanonicalRelative (kw "en") cexFrPlan (groupByTranslation [cexEnPlan, cexFrPlan]) := by
  refine ⟨by decide, by decide, by decide⟩

/-- C2 (amended): the canonical relative output of a plan is the output of
the first group member whose language equals the *requesting plan's own*
language (`plan.meta.lang ?? 'en'`), not the site default; in particular,
for any plan carrying a language tag, the canonical output always comes
from a same-language member of its own translation group (the plan's own
output when no other such member precedes it). -/
theorem resolveCanonicalRelative_own_language (plans : List RenderPlan)
    (plan : RenderPlan) (l : Str) (h1 : plan ∈ plans) (h2 : plan.meta.lang = some l) :
    ∃ p, p ∈ plans ∧ groupKeyOf p = groupKeyOf plan ∧ p.meta.lang = some l ∧
      resolveCanonicalRelative plan (groupByTranslation plans) = p.relativeOutput := by
  unfold resolveCanonicalRelative
  have hget := groupByTranslation_get plans (groupKeyOf plan)
  have hmem : plan ∈ plans.filter (fun p => groupKeyOf p = groupKeyOf plan) :=
    List.mem_filter.mpr ⟨h1, by simp⟩
  have hne : plans.filter (fun p => groupKeyOf p = groupKeyOf plan) ≠ [] :=
    List.ne_nil_of_mem hmem
  rw [hget, if_neg hne]
  simp only [Option.getD_some]
  rw [h2]
  simp only [Option.getD_some]
  rcases hf : (plans.filter (fun p => groupKeyOf p = groupKeyOf plan)).find?
      (fun entry => entry.meta.lang = some l) with _ | p
  · rw [List.find?_eq_none] at hf
    exact absurd (by simpa using h2) (by simpa using hf plan hmem)
  · have hpmem := List.mem_of_find?_eq_some hf
    have hplang : p.meta.lang = some l := by simpa using List.find?_some hf
    have hpfilter := List.mem_filter.mp hpmem
    refine ⟨p, hpfilter.1, by simpa using hpfilter.2, hplang, ?_⟩
    rw [hf]

/-- Witness for the amended C2 at the concrete plan pair. -/
theorem resolveCanonicalRelative_own_language_witness :
    cexFrPlan ∈ [cexEnPlan, cexFrPlan] ∧
    cexFrPlan.meta.lang = some (kw "fr") ∧
    (∃ p, p ∈ [cexEnPlan, cexFrPlan] ∧ groupKeyOf p = groupKeyOf cexFrPlan ∧
      p.meta.lang = some (kw "fr") ∧
      resolveCanonicalRelative cexFrPlan (groupByTranslation [cexEnPlan, cexFrPlan]) =
        p.relativeOutput) :=
  ⟨by decide, by decide,
    resolveCanonicalRelative_own_language [cexEnPlan, cexFrPlan] cexFrPlan (kw "fr")
      (by decide) (by decide)⟩

/-! ## Sitemap deduplication lemmas and C7 -/

/-- The plans that survive last-write-wins deduplication, as the spec
describes it: a plan is kept exactly when no later plan shares its output
path. -/
def lastWriters : List RenderPlan → List RenderPlan
  | [] => []
  | p :: ps =>
    if ps.any (fun q => q.relativeOutput = p.relativeOutput) then lastWriters ps
    else p :: lastWriters ps

/-- The last plan in the list carrying a given output path. -/
def lastPlanFor (plans : List RenderPlan) (k : Str) : Option RenderPlan :=
  match plans with
  | [] => none
  | p :: ps =>
    match lastPlanFor ps k with
    | some q => some q
    | none => if p.relativeOutput = k then some p else none

theorem lastPlanFor_eq_none_iff {plans : List RenderPlan} {k : Str} :
    lastPlanFor plans k = none ↔ ∀ p ∈ plans, p.relativeOutput ≠ k := by
  induction plans with
  | nil => simp [lastPlanFor]
  | cons p ps ih =>
    unfold lastPlanFor
    cases hps : lastPlanFor ps k with
    | some q =>
      simp only []
      constructor
      · intro h; exact absurd h (by simp)
      · intro h
        have : ∀ q ∈ ps, q.relativeOutput ≠ k :=
          fun q hq => h q (List.mem_cons_of_mem p hq)
        rw [ih.mpr this] at hps
        exact absurd hps (by simp)
    | none =>
      simp only []
      by_cases hp : p.relativeOutput = k
      · rw [if_pos hp]
        constructor
        · intro h; exact absurd h (by simp)
        · intro h; exact absurd hp (h p (List.mem_cons_self p ps))
      · rw [if_neg hp]
        constructor
        · intro _ q hq
          rcases List.mem_cons.mp hq with rfl | hq2
          · exact hp
          · exact (ih.mp hps) q hq2
        · intro _; rfl

theorem lastPlanFor_some {plans : List RenderPlan} {k : Str} {q : RenderPlan}
    (h : lastPlanFor plans k = some q) : q ∈ plans ∧ q.relativeOutput = k := by
  induction plans with
  | nil => simp [lastPlanFor] at h
  | cons p ps ih =>
    unfold lastPlanFor at h
    cases hps : lastPlanFor ps k with
    | some r =>
      rw [hps] at h
      have : r = q := by simpa using h
      subst this
      rcases ih hps with ⟨h1, h2⟩
      exact ⟨List.mem_cons_of_mem p h1, h2⟩
    | none =>
      rw [hps] at h
      by_cases hp : p.relativeOutput = k
      · rw [if_pos hp] at h
        have : p = q := by simpa using h
        subst this
        exact ⟨List.mem_cons_self p ps, hp⟩
      · rw [if_neg hp] at h
        exact absurd h (by simp)

theorem mem_lastWriters_iff {plans : List RenderPlan} {q : RenderPlan} :
    q ∈ lastWriters plans ↔ lastPlanFor plans q.relativeOutput = some q := by
  induction plans with
  | nil => simp [lastWriters, lastPlanFor]
  | cons p ps ih =>
    unfold lastWriters lastPlanFor
    by_cases hany : ps.any (fun r => r.relativeOutput = p.relativeOutput) = true
    · rw [if_pos hany]
      cases hps : lastPlanFor ps q.relativeOutput with
      | some r =>
        rw [ih, hps]
      | none =>
        have hnone := lastPlanFor_eq_none_iff.mp hps
        by_cases hp : p.relativeOutput = q.relativeOutput
        · rcases List.any_eq_true.mp hany with ⟨r, hr, hrp⟩
          have : r.relativeOutput = p.relativeOutput := of_decide_eq_true hrp
          exact absurd (this.trans hp) (hnone r hr)
        · rw [ih, hps]
          simp [hp]
    · rw [if_neg hany]
      have hnoneP : lastPlanFor ps p.relativeOutput = none := by
        rw [lastPlanFor_eq_none_iff]
        intro r hr hrp
        exact hany (List.any_eq_true.mpr ⟨r, hr, decide_eq_true hrp⟩)
      constructor
      · intro hq
        rcases List.mem_cons.mp hq with rfl | hq2
        · rw [hnoneP, if_pos rfl]
        · have := ih.mp hq2
          rw [this]
      · intro hq
        cases hps : lastPlanFor ps q.relativeOutput with
        | some r =>
          rw [hps] at hq
          have : r = q := by simpa using hq
          subst this
          exact List.mem_cons_of_mem p (ih.mpr hps)
        | none =>
          rw [hps] at hq
          by_cases hp : p.relativeOutput = q.relativeOutput
          · have : p = q := by
              rw [if_pos hp] at hq
              simpa using hq
            subst this
            exact List.mem_cons_self p (lastWriters ps)
          · rw [if_neg hp] at hq
            exact absurd hq (by simp)

theorem lastWriters_subset {plans : List RenderPlan} {q : RenderPlan}
    (h : q ∈ lastWriters plans) : q ∈ plans := by
  induction plans with
  | nil => simp [lastWriters] at h
  | cons p ps ih =>
    unfold lastWriters at h
    split at h
    · exact List.mem_cons_of_mem p (ih h)
    · rcases List.mem_cons.mp h with rfl | h2
      · exact List.mem_cons_self q ps
      · exact List.mem_cons_of_mem p (ih h2)

theorem lastWriters_out_nodup (plans : List RenderPlan) :
    ((lastWriters plans).map (fun p => p.relativeOutput)).Nodup := by
  induction plans with
  | nil => simp [lastWriters]
  | cons p ps ih =>
    unfold lastWriters
    split
    · exact ih
    · rename_i hany
      rw [List.map_cons, List.nodup_cons]
      refine ⟨?_, ih⟩
      intro hmem
      rcases List.mem_map.mp hmem with ⟨r, hr, hout⟩
      exact hany (List.any_eq_true.mpr
        ⟨r, lastWriters_subset hr, decide_eq_true hout⟩)

/-- `writeSitemap`'s deduplication map looks up to the last plan per
output path. -/
theorem uniqueFold_get (plans : List RenderPlan) :
    ∀ (m : List (Str × RenderPlan)) (k : Str),
      mapGet (plans.foldl uniqueStep m) k =
        (match lastPlanFor plans k with
         | some q => some q
         | none => mapGet m k) := by
  induction plans with
  | nil => intro m k; rfl
  | cons p ps ih =>
    intro m k
    have hstep : (p :: ps).foldl uniqueStep m = ps.foldl uniqueStep (uniqueStep m p) := rfl
    have hcons : lastPlanFor (p :: ps) k =
        (match lastPlanFor ps k with
         | some q => some q
         | none => if p.relativeOutput = k then some p else none) := rfl
    rw [hstep, ih, hcons]
    cases hps : lastPlanFor ps k with
    | some q => rfl
    | none =>
      unfold uniqueStep
      by_cases hp : p.relativeOutput = k
      · rw [if_pos hp, hp, mapGet_mapSet_self]
      · rw [if_neg hp, mapGet_mapSet_ne _ _ _ _ (fun he => hp he.symm)]

theorem uniqueByOutput_get (plans : List RenderPlan) (k : Str) :
    mapGet (uniqueByOutput plans) k = lastPlanFor plans k := by
  have h := uniqueFold_get plans [] k
  unfold uniqueByOutput
  rw [h]
  cases lastPlanFor plans k <;> rfl

/-- Structural invariants of the deduplication map: distinct keys, and
every entry keyed by its plan's output. -/
theorem uniqueFold_invariants (plans : List RenderPlan) :
    ∀ (m : List (Str × RenderPlan)),
      (m.map Prod.fst).Nodup → (∀ e ∈ m, e.2.relativeOutput = e.1) →
      ((plans.foldl uniqueStep m).map Prod.fst).Nodup ∧
        (∀ e ∈ plans.foldl uniqueStep m, e.2.relativeOutput = e.1) := by
  induction plans with
  | nil => intro m h1 h2; exact ⟨h1, h2⟩
  | cons p ps ih =>
    intro m h1 h2
    have hstep : (p :: ps).foldl uniqueStep m = ps.foldl uniqueStep (uniqueStep m p) := rfl
    rw [hstep]
    refine ih _ ?_ ?_
    · unfold uniqueStep mapSet
      split
      · have : (m.map (fun e => if e.1 = p.relativeOutput then (p.relativeOutput, p) else e)).map
            Prod.fst = m.map Prod.fst := by
          rw [List.map_map]
          refine List.map_congr_left ?_
          intro e he
          by_cases hek : e.1 = p.relativeOutput
          · simp [hek]
          · simp [hek]
        rw [this]
        exact h1
      · rename_i hanyf
        rw [List.map_append, List.nodup_append]
        refine ⟨h1, by simp, ?_⟩
        intro a ha hb
        have hb2 : a = p.relativeOutput := by simpa using hb
        subst hb2
        rcases List.mem_map.mp ha with ⟨e, he, hea⟩
        exact hanyf (List.any_eq_true.mpr ⟨e, he, decide_eq_true hea⟩)
    · unfold uniqueStep mapSet
      split
      · intro e he
        rcases List.mem_map.mp he with ⟨f, hf, hfe⟩
        by_cases hfk : f.1 = p.relativeOutput
        · rw [if_pos hfk] at hfe
          rw [← hfe]
        · rw [if_neg hfk] at hfe
          rw [← hfe]
          exact h2 f hf
      · intro e he
        rcases List.mem_append.mp he with he2 | he2
        · exact h2 e he2
        · have : e = (p.relativeOutput, p) := by simpa using he2
          rw [this]

theorem mem_get_of_nodup {α : Type} {m : List (Str × α)} {k : Str} {v : α}
    (hnd : (m.map Prod.fst).Nodup) (h : (k, v) ∈ m) : mapGet m k = some v := by
  induction m with
  | nil => simp at h
  | cons e t ih =>
    rw [List.map_cons, List.nodup_cons] at hnd
    rcases List.mem_cons.mp h with rfl | h2
    · unfold mapGet
      simp [List.find?]
    · have hek : ¬(e.1 = k) := by
        intro hk
        exact hnd.1 (List.mem_map.mpr ⟨(k, v), h2, by rw [hk]⟩)
      unfold mapGet
      simp only [List.find?, decide_eq_false hek]
      exact ih hnd.2 h2

theorem get_of_mem {α : Type} {m : List (Str × α)} {k : Str} {v : α}
    (h : mapGet m k = some v) : (k, v) ∈ m := by
  unfold mapGet at h
  cases hf : m.find? (fun p => p.1 = k) with
  | none => rw [hf] at h; exact absurd h (by simp)
  | some e =>
    rw [hf] at h
    have he : e.2 = v := by simpa using h
    have hek : e.1 = k := by simpa using List.find?_some hf
    have := List.mem_of_find?_eq_some hf
    rw [← he, ← hek]
    exact this

/-- Membership in the deduplicated values is exactly being the last writer
of one's output path. -/
theorem mem_uniqueValues_iff {plans : List RenderPlan} {v : RenderPlan} :
    v ∈ (uniqueByOutput plans).map (fun p => p.2) ↔ v ∈ lastWriters plans := by
  have hinv := uniqueFold_invariants plans [] (by simp) (by simp)
  rw [mem_lastWriters_iff, ← uniqueByOutput_get]
  constructor
  · intro h
    rcases List.mem_map.mp h with ⟨e, he, hev⟩
    have hout := hinv.2 e he
    have he2 : (e.1, v) ∈ uniqueByOutput plans := by
      rw [← hev]
      exact he
    have hkey : v.relativeOutput = e.1 := by rw [← hev]; exact hout
    rw [hkey]
    exact mem_get_of_nodup hinv.1 he2
  · intro h
    have := get_of_mem h
    exact List.mem_map.mpr ⟨(v.relativeOutput, v), this, rfl⟩

/-- The values of the deduplication map carry pairwise distinct output
paths. -/
theorem uniqueValues_out_nodup (plans : List RenderPlan) :
    (((uniqueByOutput plans).map (fun p => p.2)).map
      (fun p => p.relativeOutput)).Nodup := by
  have hinv := uniqueFold_invariants plans [] (by simp) (by simp)
  have : ((uniqueByOutput plans).map (fun p => p.2)).map (fun p => p.relativeOutput) =
      (uniqueByOutput plans).map Prod.fst := by
    rw [List.map_map]
    refine List.map_congr_left ?_
    intro e he
    exact hinv.2 e he
  rw [this]
  exact hinv.1

/-! ## Alternate-link ordering (`sortAlternates`) -/

theorem lastIndexIn_eq_none {xs : List Str} {k : Str} (h : k ∉ xs) :
    lastIndexIn xs k = none := by
  induction xs with
  | nil => rfl
  | cons x rest ih =>
    have h1 : ¬ x = k := by intro e; exact h (by simp [e])
    have h2 : k ∉ rest := fun m => h (List.mem_cons_of_mem x m)
    simp [lastIndexIn, ih h2, h1]

theorem lastIndexIn_isSome {xs : List Str} {k : Str} (h : k ∈ xs) :
    ∃ i, lastIndexIn xs k = some i := by
  induction xs with
  | nil => simp at h
  | cons x rest ih =>
    by_cases hm : k ∈ rest
    · obtain ⟨i, hi⟩ := ih hm
      exact ⟨i + 1, by simp [lastIndexIn, hi]⟩
    · have hx : x = k := by
        rcases List.mem_cons.mp h with h' | h'
        · exact h'.symm
        · exact absurd h' hm
      exact ⟨0, by simp [lastIndexIn, lastIndexIn_eq_none hm, hx]⟩

/-- In a duplicate-free list the (last-wins) `Map` indices are strictly
increasing along the list. -/
theorem pairwise_lastIndexIn {xs : List Str} (h : xs.Nodup) :
    xs.Pairwise (fun a b => ∃ i j, lastIndexIn xs a = some i ∧
      lastIndexIn xs b = some j ∧ i < j) := by
  induction xs with
  | nil => exact List.Pairwise.nil
  | cons x rest ih =>
    rw [List.nodup_cons] at h
    refine List.Pairwise.cons ?_ ((ih h.2).imp ?_)
    · intro b hb
      obtain ⟨j, hj⟩ := lastIndexIn_isSome hb
      refine ⟨0, j + 1, ?_, ?_, Nat.succ_pos j⟩
      · simp [lastIndexIn, lastIndexIn_eq_none h.1]
      · simp [lastIndexIn, hj]
    · intro a b hab
      obtain ⟨i, j, hia, hjb, hij⟩ := hab
      exact ⟨i + 1, j + 1, by simp [lastIndexIn, hia],
        by simp [lastIndexIn, hjb], by omega⟩

theorem map_filter_comm {α β : Type} (f : α → β) (p : β → Bool) (l : List α) :
    (l.filter (fun x => p (f x))).map f = (l.map f).filter p := by
  induction l with
  | nil => rfl
  | cons x xs ih => by_cases h : p (f x) = true <;> simp [List.filter_cons, h, ih]

theorem alternatesCmp_conn (order : Str → Option Nat) :
    ∀ a b : ALink, ¬(alternatesCmp order a b < 0) → alternatesCmp order b a ≤ 0 := by
  intro a b h
  simp only [alternatesCmp] at h ⊢
  by_cases hab : ((order a.lang).map Int.ofNat).getD MAX_SAFE_INTEGER
      = ((order b.lang).map Int.ofNat).getD MAX_SAFE_INTEGER
  · rw [if_pos hab] at h
    rw [if_pos hab.symm]
    have hflip := jsLocaleCompare_flip b.lang a.lang
    omega
  · rw [if_neg hab] at h
    rw [if_neg (fun e => hab e.symm)]
    omega

theorem alternatesCmp_le_trans {order : Str → Option Nat} {a b c : ALink}
    (h1 : alternatesCmp order a b ≤ 0) (h2 : alternatesCmp order b c ≤ 0) :
    alternatesCmp order a c ≤ 0 := by
  simp only [alternatesCmp] at h1 h2 ⊢
  by_cases hab : ((order a.lang).map Int.ofNat).getD MAX_SAFE_INTEGER
      = ((order b.lang).map Int.ofNat).getD MAX_SAFE_INTEGER
  · rw [if_pos hab] at h1
    by_cases hbc : ((order b.lang).map Int.ofNat).getD MAX_SAFE_INTEGER
        = ((order c.lang).map Int.ofNat).getD MAX_SAFE_INTEGER
    · rw [if_pos hbc] at h2
      rw [if_pos (hab.trans hbc)]
      exact jsLocaleCompare_le_trans h1 h2
    · rw [if_neg hbc] at h2
      rw [if_neg (fun e => hbc (hab.symm.trans e))]
      omega
  · rw [if_neg hab] at h1
    by_cases hbc : ((order b.lang).map Int.ofNat).getD MAX_SAFE_INTEGER
        = ((order c.lang).map Int.ofNat).getD MAX_SAFE_INTEGER
    · rw [if_neg (fun e => hab (e.trans hbc.symm))]
      omega
    · rw [if_neg hbc] at h2
      have hac : ¬(((order a.lang).map Int.ofNat).getD MAX_SAFE_INTEGER
          = ((order c.lang).map Int.ofNat).getD MAX_SAFE_INTEGER) := by
        intro e
        omega
      rw [if_neg hac]
      omega

/-- `sortAlternates` over links with pairwise distinct languages:
the default-language link first, then the remaining links in their own
list order (the order map is built from the links' languages
themselves). -/
theorem sortAlternates_group_order (links : List ALink) (d : Str)
    (hnodup : (links.map (fun l => l.lang)).Nodup) :
    sortAlternates links d =
      links.filter (fun l => l.lang = d) ++ links.filter (fun l => l.lang ≠ d) := by
  simp only [sortAlternates]
  set ys := (links.map (fun l => l.lang)).filter (fun l => l ≠ d) with hys
  set order := lastIndexIn (d :: ys) with horder
  have hdys : d ∉ ys := by
    intro hm
    rw [hys] at hm
    have := (List.mem_filter.mp hm).2
    simp at this
  have hysnodup : ys.Nodup := by
    rw [hys]
    exact hnodup.filter _
  have horder_d : order d = some 0 := by
    rw [horder]
    simp [lastIndexIn, lastIndexIn_eq_none hdys]
  have horder_mem : ∀ x ∈ ys, ∃ j, order x = some (j + 1) ∧
      lastIndexIn ys x = some j := by
    intro x hx
    obtain ⟨j, hj⟩ := lastIndexIn_isSome hx
    exact ⟨j, by rw [horder]; simp [lastIndexIn, hj], hj⟩
  have hlang_mem : ∀ l ∈ links, l.lang ≠ d → l.lang ∈ ys := by
    intro l hl hne
    rw [hys]
    exact List.mem_filter.mpr ⟨List.mem_map_of_mem _ hl, by simpa using hne⟩
  have hpairT : List.Pairwise (fun a b => alternatesCmp order a b ≤ 0)
      (links.filter (fun l => l.lang = d) ++ links.filter (fun l => l.lang ≠ d)) := by
    rw [List.pairwise_append]
    refine ⟨?_, ?_, ?_⟩
    · refine List.pairwise_of_forall_mem_list ?_
      intro a ha b hb
      have ha' : a.lang = d := by simpa using (List.mem_filter.mp ha).2
      have hb' : b.lang = d := by simpa using (List.mem_filter.mp hb).2
      simp only [alternatesCmp]
      rw [ha', hb', if_pos rfl]
      exact le_of_eq (jsLocaleCompare_eq_zero_iff.mpr rfl)
    · have hys_eq : (links.filter (fun l => l.lang ≠ d)).map (fun l => l.lang) = ys := by
        rw [hys]
        exact map_filter_comm (fun l => l.lang) (fun s => s ≠ d) links
      have hpos := pairwise_lastIndexIn hysnodup
      rw [← hys_eq, List.pairwise_map] at hpos
      refine hpos.imp ?_
      intro a b hab
      obtain ⟨i, j, hia, hjb, hij⟩ := hab
      rw [hys_eq] at hia hjb
      have hOa : order a.lang = some (i + 1) := by
        rw [horder]
        simp [lastIndexIn, hia]
      have hOb : order b.lang = some (j + 1) := by
        rw [horder]
        simp [lastIndexIn, hjb]
      have hcond : ¬(((order a.lang).map Int.ofNat).getD MAX_SAFE_INTEGER
          = ((order b.lang).map Int.ofNat).getD MAX_SAFE_INTEGER) := by
        rw [hOa, hOb]
        simp only [Option.map_some', Option.getD_some, Int.ofNat_eq_natCast]
        omega
      simp only [alternatesCmp]
      rw [if_neg hcond, hOa, hOb]
      simp only [Option.map_some', Option.getD_some, Int.ofNat_eq_natCast]
      omega
    · intro a ha b hb
      have ha' : a.lang = d := by simpa using (List.mem_filter.mp ha).2
      have hbl : b.lang ≠ d := by simpa using (List.mem_filter.mp hb).2
      have hbin : b.lang ∈ ys := hlang_mem b (List.mem_of_mem_filter hb) hbl
      obtain ⟨j, hOb, _⟩ := horder_mem _ hbin
      have hOa : order a.lang = some 0 := by rw [ha']; exact horder_d
      have hcond : ¬(((order a.lang).map Int.ofNat).getD MAX_SAFE_INTEGER
          = ((order b.lang).map Int.ofNat).getD MAX_SAFE_INTEGER) := by
        rw [hOa, hOb]
        simp only [Option.map_some', Option.getD_some, Int.ofNat_eq_natCast]
        omega
      simp only [alternatesCmp]
      rw [if_neg hcond, hOa, hOb]
      simp only [Option.map_some', Option.getD_some, Int.ofNat_eq_natCast]
      omega
  have hperm : List.Perm (jsSort (alternatesCmp order) links)
      (links.filter (fun l => l.lang = d) ++ links.filter (fun l => l.lang ≠ d)) := by
    refine (jsSort_perm _ _).trans ?_
    have hap := (List.filter_append_perm (fun l : ALink => decide (l.lang = d)) links).symm
    have hfc : links.filter (fun x => !(decide (x.lang = d)))
        = links.filter (fun l => decide (l.lang ≠ d)) :=
      List.filter_congr (fun x _ => by simp [decide_not])
    rw [hfc] at hap
    exact hap
  have hanti : ∀ a ∈ jsSort (alternatesCmp order) links,
      ∀ b ∈ jsSort (alternatesCmp order) links,
      alternatesCmp order a b ≤ 0 → alternatesCmp order b a ≤ 0 → a = b := by
    intro a ha b hb h1 h2
    have ha' : a ∈ links := (jsSort_perm _ _).subset ha
    have hb' : b ∈ links := (jsSort_perm _ _).subset hb
    simp only [alternatesCmp] at h1 h2
    by_cases hab : ((order a.lang).map Int.ofNat).getD MAX_SAFE_INTEGER
        = ((order b.lang).map Int.ofNat).getD MAX_SAFE_INTEGER
    · rw [if_pos hab] at h1
      rw [if_pos hab.symm] at h2
      have hflip := jsLocaleCompare_flip a.lang b.lang
      have h0 : jsLocaleCompare a.lang b.lang = 0 := by omega
      exact List.inj_on_of_nodup_map hnodup ha' hb' (jsLocaleCompare_eq_zero_iff.mp h0)
    · rw [if_neg hab] at h1
      rw [if_neg (fun e => hab e.symm)] at h2
      omega
  haveI : IsTrans ALink (fun a b => alternatesCmp order a b ≤ 0) :=
    ⟨fun _ _ _ h1 h2 => alternatesCmp_le_trans h1 h2⟩
  exact eq_of_perm_of_chain' hperm (chain'_jsSort (alternatesCmp_conn order) links)
    hpairT.chain' hanti

/-- The ordering §4.6's text describes for the alternate entries of a
page: default language first, then the remaining configured languages in
configured order, then unlisted languages alphabetically, then
`x-default`. -/
def specAlternateLangOrder (defaultLang : Str) (supportedLangs : List Str)
    (langs : List Str) : List Str :=
  (langs.filter (fun l => l = defaultLang)) ++
  (((supportedLangs.filter (fun l => l ≠ defaultLang)).map
    (fun l => langs.filter (fun x => x = l))).flatten) ++
  (jsSort jsLocaleCompare (langs.filter
    (fun l => l ≠ defaultLang ∧ l ∉ supportedLangs))) ++
  [kw "x-default"]

/-- An English / Dutch / French translation group whose members appear
in the order en, nl, fr. -/
def cexEnAltPlan : RenderPlan :=
  { sourcePath := kw "/content/page.md"
    outputPath := kw "/docs/page.html"
    relativeOutput := kw "page.html"
    meta := { slug := some (kw "page"), lang := some (kw "en"),
              output := kw "page.html", translationOf := some (kw "page") } }

def cexNlAltPlan : RenderPlan :=
  { sourcePath := kw "/content/nl/page.md"
    outputPath := kw "/docs/nl/page.html"
    relativeOutput := kw "nl/page.html"
    meta := { slug := some (kw "page"), lang := some (kw "nl"),
              output := kw "nl/page.html", translationOf := some (kw "page") } }

def cexFrAltPlan : RenderPlan :=
  { sourcePath := kw "/content/fr/page.md"
    outputPath := kw "/docs/fr/page.html"
    relativeOutput := kw "fr/page.html"
    meta := { slug := some (kw "page"), lang := some (kw "fr"),
              output := kw "fr/page.html", translationOf := some (kw "page") } }

/-- C6 is refuted: for a translation group holding exactly the languages
en, fr, nl with default en — where the spec's ordering (configured order
en, fr, nl) predicts en, fr, nl, x-default — the built alternate list is
ordered en, nl, fr, x-default, following the group's own member order;
the configured language list never reaches `buildAlternateLinks`. -/
theorem buildAlternateLinks_order_counterexample :
    (buildAlternateLinks (fun s => s) cexEnAltPlan
        (groupByTranslation [cexEnAltPlan, cexNlAltPlan, cexFrAltPlan])
        (kw "en")).map (fun alt => alt.lang) =
      [kw "en", kw "nl", kw "fr", kw "x-default"] ∧
    specAlternateLangOrder (kw "en") [kw "en", kw "fr", kw "nl"]
        [kw "en", kw "nl", kw "fr"] =
      [kw "en", kw "fr", kw "nl", kw "x-default"] ∧
    (buildAlternateLinks (fun s => s) cexEnAltPlan
        (groupByTranslation [cexEnAltPlan, cexNlAltPlan, cexFrAltPlan])
        (kw "en")).map (fun alt => alt.lang) ≠
      specAlternateLangOrder (kw "en") [kw "en", kw "fr", kw "nl"]
        [kw "en", kw "nl", kw "fr"] :=
  ⟨by decide, by decide, by decide⟩

/-- C6 (amended): for every plan whose translation group carries pairwise
distinct languages, the alternate list built for it lists the
default-language entry first and then the remaining group entries in the
order the group members appear (the order map is built from the group's
own languages, so the configured language order plays no role and the
alphabetical fallback never applies), with a synthetic `x-default` entry
appended last pointing at the canonical URL. -/
theorem buildAlternateLinks_order (toAbs : Str → Str) (plan : RenderPlan)
    (groups : List (Str × List RenderPlan)) (defaultLang : Str)
    (hnodup : (((mapGet groups (groupKeyOf plan)).getD [plan]).map
      (fun e => e.meta.lang.getD defaultLang)).Nodup) :
    (buildAlternateLinks toAbs plan groups defaultLang).map (fun alt => alt.lang) =
      ((((mapGet groups (groupKeyOf plan)).getD [plan]).map
          (fun e => e.meta.lang.getD defaultLang)).filter (fun l => l = defaultLang) ++
        (((mapGet groups (groupKeyOf plan)).getD [plan]).map
          (fun e => e.meta.lang.getD defaultLang)).filter (fun l => l ≠ defaultLang)) ++
      [kw "x-default"] ∧
    (buildAlternateLinks toAbs plan groups defaultLang).getLast? =
      some { lang := kw "x-default",
             href := toAbs (normalizeIndexUrl (stripHtmlExtension
               (resolveCanonicalRelative plan groups))) } := by
  simp only [buildAlternateLinks]
  have hmm : (((mapGet groups (groupKeyOf plan)).getD [plan]).map
      (fun entry =>
        { lang := entry.meta.lang.getD defaultLang,
          href := toAbs (normalizeIndexUrl (stripHtmlExtension entry.relativeOutput))
          : ALink })).map (fun l => l.lang)
      = ((mapGet groups (groupKeyOf plan)).getD [plan]).map
          (fun e => e.meta.lang.getD defaultLang) := by
    rw [List.map_map]
    rfl
  constructor
  · rw [List.map_append,
      sortAlternates_group_order _ defaultLang (by rw [hmm]; exact hnodup),
      List.map_append]
    have he1 : ∀ ls : List ALink, (ls.filter (fun l => l.lang = defaultLang)).map
        (fun l => l.lang) = (ls.map (fun l => l.lang)).filter (fun s => s = defaultLang) :=
      fun ls => map_filter_comm (fun l => l.lang) (fun s => s = defaultLang) ls
    have he2 : ∀ ls : List ALink, (ls.filter (fun l => l.lang ≠ defaultLang)).map
        (fun l => l.lang) = (ls.map (fun l => l.lang)).filter (fun s => s ≠ defaultLang) :=
      fun ls => map_filter_comm (fun l => l.lang) (fun s => s ≠ defaultLang) ls
    rw [he1, he2, hmm]
    rfl
  · exact List.getLast?_concat _

/-- Concrete instantiation of the amended alternate-ordering theorem on
the en/nl/fr group: the group languages are pairwise distinct, and the
conclusion holds for it. -/
theorem buildAlternateLinks_order_witness :
    ((((mapGet (groupByTranslation [cexEnAltPlan, cexNlAltPlan, cexFrAltPlan])
          (groupKeyOf cexEnAltPlan)).getD [cexEnAltPlan]).map
        (fun e => e.meta.lang.getD (kw "en"))).Nodup) ∧
    ((buildAlternateLinks (fun s => s) cexEnAltPlan
        (groupByTranslation [cexEnAltPlan, cexNlAltPlan, cexFrAltPlan])
        (kw "en")).map (fun alt => alt.lang) =
      ((((mapGet (groupByTranslation [cexEnAltPlan, cexNlAltPlan, cexFrAltPlan])
            (groupKeyOf cexEnAltPlan)).getD [cexEnAltPlan]).map
          (fun e => e.meta.lang.getD (kw "en"))).filter (fun l => l = kw "en") ++
        (((mapGet (groupByTranslation [cexEnAltPlan, cexNlAltPlan, cexFrAltPlan])
            (groupKeyOf cexEnAltPlan)).getD [cexEnAltPlan]).map
          (fun e => e.meta.lang.getD (kw "en"))).filter (fun l => l ≠ kw "en")) ++
      [kw "x-default"] ∧
     (buildAlternateLinks (fun s => s) cexEnAltPlan
        (groupByTranslation [cexEnAltPlan, cexNlAltPlan, cexFrAltPlan])
        (kw "en")).getLast? =
      some { lang := kw "x-default",
             href := normalizeIndexUrl (stripHtmlExtension
               (resolveCanonicalRelative cexEnAltPlan
                 (groupByTranslation [cexEnAltPlan, cexNlAltPlan, cexFrAltPlan]))) }) :=
  ⟨by decide, buildAlternateLinks_order (fun s => s) cexEnAltPlan
      (groupByTranslation [cexEnAltPlan, cexNlAltPlan, cexFrAltPlan]) (kw "en")
      (by decide)⟩

/-- The noindexed/plain plan pair of the claim's scenario. -/
def cexNoindexPlan : RenderPlan :=
  { sourcePath := kw "/content/page1.md"
    outputPath := kw "/docs/page1.html"
    relativeOutput := kw "page1.html"
    meta := { slug := some (kw "page1"), output := kw "page1.html",
              noindex := some (.bool true) } }

def cexPage2Plan : RenderPlan :=
  { sourcePath := kw "/content/page2.md"
    outputPath := kw "/docs/page2.html"
    relativeOutput := kw "page2.html"
    meta := { slug := some (kw "page2"), output := kw "page2.html" } }

/-- C7: sitemap generation deduplicates by output path with last write
winning (the emitted plans are exactly the sorted, noindex-filtered
last writers), sorts the surviving entries by output path, and over the
noindex scenario pair emits only the non-noindexed plan's location with
its non-`x-default` alternates. -/
theorem writeSitemap_rows_spec (toAbs : Str → Str) (plans : List RenderPlan)
    (defaultLang : Str) (groups : List (Str × List RenderPlan)) :
    sitemapEntryPlans plans =
      jsSort (fun a b => jsLocaleCompare a.relativeOutput b.relativeOutput)
        ((lastWriters plans).filter (fun plan => !isNoindexEnabled plan.meta)) ∧
    List.Chain' (fun a b => jsLocaleCompare a.relativeOutput b.relativeOutput ≤ 0)
      (sitemapEntryPlans plans) ∧
    sitemapRows toAbs [cexNoindexPlan, cexPage2Plan] (kw "en")
        (groupByTranslation [cexNoindexPlan, cexPage2Plan]) =
      [(toAbs (kw "page2"), [⟨kw "en", toAbs (kw "page2")⟩])] := by
  have hconn : ∀ a b : RenderPlan,
      ¬(jsLocaleCompare a.relativeOutput b.relativeOutput < 0) →
      jsLocaleCompare b.relativeOutput a.relativeOutput ≤ 0 := by
    intro a b h
    have hf := jsLocaleCompare_flip b.relativeOutput a.relativeOutput
    omega
  haveI : IsTrans RenderPlan
      (fun a b => jsLocaleCompare a.relativeOutput b.relativeOutput ≤ 0) :=
    ⟨fun a b c h1 h2 => jsLocaleCompare_le_trans h1 h2⟩
  refine ⟨?_, ?_, rfl⟩
  · -- dedup-by-last-writer equivalence
    have hvnodup : ((uniqueByOutput plans).map (fun p => p.2)).Nodup :=
      List.Nodup.of_map _ (uniqueValues_out_nodup plans)
    have hlwnodup : (lastWriters plans).Nodup :=
      List.Nodup.of_map _ (lastWriters_out_nodup plans)
    have hperm0 : List.Perm ((uniqueByOutput plans).map (fun p => p.2))
        (lastWriters plans) :=
      (List.perm_ext_iff_of_nodup hvnodup hlwnodup).mpr
        (fun v => mem_uniqueValues_iff)
    have hpermF : List.Perm
        (((uniqueByOutput plans).map (fun p => p.2)).filter
          (fun plan => !isNoindexEnabled plan.meta))
        ((lastWriters plans).filter (fun plan => !isNoindexEnabled plan.meta)) :=
      hperm0.filter _
    have hperm : List.Perm (sitemapEntryPlans plans)
        (jsSort (fun a b => jsLocaleCompare a.relativeOutput b.relativeOutput)
          ((lastWriters plans).filter (fun plan => !isNoindexEnabled plan.meta))) :=
      ((jsSort_perm _ _).trans hpermF).trans (jsSort_perm _ _).symm
    refine eq_of_perm_of_chain' hperm (chain'_jsSort hconn _) (chain'_jsSort hconn _) ?_
    · intro a ha b hb hab hba
      have hamem : a ∈ (uniqueByOutput plans).map (fun p => p.2) :=
        List.mem_of_mem_filter ((jsSort_perm _ _).subset ha)
      have hbmem : b ∈ (uniqueByOutput plans).map (fun p => p.2) :=
        List.mem_of_mem_filter ((jsSort_perm _ _).subset hb)
      have hflip := jsLocaleCompare_flip a.relativeOutput b.relativeOutput
      have hzero : jsLocaleCompare a.relativeOutput b.relativeOutput = 0 := by omega
      have houts : a.relativeOutput = b.relativeOutput :=
        jsLocaleCompare_eq_zero_iff.mp hzero
      exact List.inj_on_of_nodup_map (uniqueValues_out_nodup plans) hamem hbmem houts
  · exact chain'_jsSort hconn _

/-! ## Output-path collisions -/

/-- Two source documents in the same directory whose front matter forces
the same slug. -/
def cexCollisionDocs : List (Str × Str) :=
  [(kw "/content/a.md", kw "---\nslug: same\n---\nA"),
   (kw "/content/b.md", kw "---\nslug: same\n---\nB")]

/-- C3 is refuted: two documents resolving to the same output path are
both planned with identical `relativeOutput` — plan construction is
total, so no build error can occur, and the duplicate is not detected
anywhere. -/
theorem buildPlans_collision_counterexample :
    (buildPlans {} (fun s => s) (fun s => s) (fun s => s) (kw "/content")
        (kw "/docs") (kw "en") [kw "en"] cexCollisionDocs).map
      (fun p => p.relativeOutput) = [kw "same.html", kw "same.html"] ∧
    ¬ ((buildPlans {} (fun s => s) (fun s => s) (fun s => s) (kw "/content")
        (kw "/docs") (kw "en") [kw "en"] cexCollisionDocs).map
      (fun p => p.relativeOutput)).Nodup :=
  ⟨by decide, by decide⟩

/-- C3 (amended): no output-collision check exists: plan construction
always returns exactly one plan per source document and cannot fail, even
when documents collide on their output path; over the colliding pair the
sitemap's per-output map then silently retains only the later document's
plan (last write wins) with no conflict surfaced. -/
theorem buildPlans_no_collision_check (dm : DefaultMeta) (render obf utm : Str → Str)
    (contentDir outputDir defaultLang : Str) (supportedLangs : List Str)
    (docs : List (Str × Str)) :
    (buildPlans dm render obf utm contentDir outputDir defaultLang
        supportedLangs docs).length = docs.length ∧
    (uniqueByOutput (buildPlans {} (fun s => s) (fun s => s) (fun s => s)
        (kw "/content") (kw "/docs") (kw "en") [kw "en"] cexCollisionDocs)).map
      (fun e => e.2.sourcePath) = [kw "/content/b.md"] := by
  refine ⟨?_, by decide⟩
  simp [buildPlans]

/-! ## Path-shape lemmas for directory preservation -/

/-- A plain path segment: non-empty, free of separators and backslashes,
and not a navigation segment. -/
def cleanSeg (s : Str) : Prop :=
  s ≠ [] ∧ (∀ c ∈ s, c ≠ '/' ∧ c ≠ '\\') ∧ s ≠ kw "." ∧ s ≠ kw ".."

instance cleanSegDecidable (s : Str) : Decidable (cleanSeg s) :=
  inferInstanceAs (Decidable (s ≠ [] ∧ (∀ c ∈ s, c ≠ '/' ∧ c ≠ '\\') ∧
    s ≠ kw "." ∧ s ≠ kw ".."))

theorem mem_joinWith {sep : Char} {segs : List Str} {c : Char}
    (h : c ∈ joinWith sep segs) : c = sep ∨ ∃ seg ∈ segs, c ∈ seg := by
  induction segs with
  | nil => simp [joinWith] at h
  | cons x t ih =>
    cases t with
    | nil =>
      exact Or.inr ⟨x, List.mem_cons_self x [], h⟩
    | cons y u =>
      rcases List.mem_append.mp h with h1 | h1
      · exact Or.inr ⟨x, List.mem_cons_self x (y :: u), h1⟩
      · rcases List.mem_cons.mp h1 with h2 | h2
        · exact Or.inl h2
        · rcases ih h2 with h3 | ⟨seg, hseg, hc⟩
          · exact Or.inl h3
          · exact Or.inr ⟨seg, List.mem_cons_of_mem x hseg, hc⟩

theorem joinWith_ne_nil {sep : Char} {x : Str} {t : List Str} (hx : x ≠ []) :
    joinWith sep (x :: t) ≠ [] := by
  cases t with
  | nil => exact hx
  | cons y u =>
    show x ++ sep :: joinWith sep (y :: u) ≠ []
    simp

theorem joinWith_head_ne {segs : List Str} (hne : segs ≠ [])
    (h : ∀ s ∈ segs, s ≠ [] ∧ ∀ c ∈ s, c ≠ '/') :
    (joinWith '/' segs).head? ≠ some '/' := by
  cases segs with
  | nil => exact absurd rfl hne
  | cons x t =>
    obtain ⟨hx, hxc⟩ := h x (List.mem_cons_self x t)
    cases x with
    | nil => exact absurd rfl hx
    | cons c cs' =>
      have hc := hxc c (List.mem_cons_self c cs')
      cases t with
      | nil =>
        intro e
        exact hc (by simpa [joinWith] using e)
      | cons y u =>
        intro e
        exact hc (by simpa [joinWith] using e)

theorem joinWith_ne_dot {segs : List Str} (hne : segs ≠ [])
    (h : ∀ s ∈ segs, cleanSeg s) : joinWith '/' segs ≠ kw "." := by
  cases segs with
  | nil => exact absurd rfl hne
  | cons x t =>
    cases t with
    | nil => exact (h x (List.mem_cons_self x [])).2.2.1
    | cons y u =>
      intro e
      have hx := (h x (List.mem_cons_self x (y :: u))).1
      have hxp : 0 < x.length := List.length_pos.mpr hx
      have hlen := congrArg List.length e
      have hdot : (kw ".").length = 1 := by decide
      rw [hdot] at hlen
      have : (joinWith '/' (x :: y :: u)).length
          = x.length + (joinWith '/' (y :: u)).length + 1 := by
        show (x ++ '/' :: joinWith '/' (y :: u)).length = _
        simp
        omega
      omega

theorem normSegs_clean (isAbs : Bool) {segs : List Str}
    (h : ∀ s ∈ segs, s ≠ kw "." ∧ s ≠ kw "..") :
    normSegs isAbs segs = segs := by
  have H : ∀ (l : List Str), (∀ s ∈ l, s ≠ kw "." ∧ s ≠ kw "..") → ∀ acc : List Str,
      l.foldl (fun acc seg =>
        if seg = kw "." then acc
        else if seg = kw ".." then
          if acc ≠ [] ∧ acc.getLast? ≠ some (kw "..") then acc.dropLast
          else if isAbs then acc else acc ++ [seg]
        else acc ++ [seg]) acc = acc ++ l := by
    intro l
    induction l with
    | nil => intro _ acc; simp
    | cons s t ih =>
      intro hl acc
      have hs := hl s (List.mem_cons_self s t)
      simp only [List.foldl_cons]
      rw [if_neg hs.1, if_neg hs.2,
        ih (fun x hx => hl x (List.mem_cons_of_mem s hx)) (acc ++ [s])]
      simp
  simpa [normSegs] using H segs h []

theorem pathSegs_join {segs : List Str} (hne : segs ≠ [])
    (h : ∀ s ∈ segs, s ≠ [] ∧ ∀ c ∈ s, c ≠ '/') :
    pathSegs (joinWith '/' segs) = segs := by
  unfold pathSegs
  rw [split_join hne (fun s hs => (h s hs).2)]
  exact filter_ne_nil_id (fun s hs => (h s hs).1)

theorem pathSegs_abs_join {segs : List Str} (hne : segs ≠ [])
    (h : ∀ s ∈ segs, s ≠ [] ∧ ∀ c ∈ s, c ≠ '/') :
    pathSegs ('/' :: joinWith '/' segs) = segs := by
  unfold pathSegs
  have hsp : splitOnChar '/' ('/' :: joinWith '/' segs)
      = [] :: splitOnChar '/' (joinWith '/' segs) := by
    show splitOnChar '/' (([] : Str) ++ '/' :: joinWith '/' segs) = _
    rw [splitOnChar_append (by intro c hc; simp at hc)]
  rw [hsp, split_join hne (fun s hs => (h s hs).2), List.filter_cons]
  have hdec : (decide (([] : Str) ≠ [])) = false := by decide
  rw [hdec]
  simp only [Bool.false_eq_true, if_false]
  exact filter_ne_nil_id (fun s hs => (h s hs).1)

theorem normSegs_pathSegs_abs {segs : List Str} (h : ∀ s ∈ segs, cleanSeg s) :
    normSegs true (pathSegs ('/' :: joinWith '/' segs)) = segs := by
  cases segs with
  | nil => decide
  | cons x t =>
    rw [pathSegs_abs_join (by simp) (fun s hs => ⟨(h s hs).1,
      fun c hc => ((h s hs).2.1 c hc).1⟩)]
    exact normSegs_clean true (fun s hs => (h s hs).2.2)

theorem pathNormalize_abs_clean {segs : List Str} (hne : segs ≠ [])
    (h : ∀ s ∈ segs, cleanSeg s) :
    pathNormalize ('/' :: joinWith '/' segs) = '/' :: joinWith '/' segs := by
  simp only [pathNormalize]
  have hd : (decide (('/' :: joinWith '/' segs).head? = some '/')) = true := by simp
  rw [hd, normSegs_pathSegs_abs h, if_neg hne,
    if_pos (show ('/' :: joinWith '/' segs).head? = some '/' from rfl)]

theorem pathNormalize_rel_clean {segs : List Str} (hne : segs ≠ [])
    (h : ∀ s ∈ segs, cleanSeg s) :
    pathNormalize (joinWith '/' segs) = joinWith '/' segs := by
  simp only [pathNormalize]
  have hch : ∀ s ∈ segs, s ≠ [] ∧ ∀ c ∈ s, c ≠ '/' :=
    fun s hs => ⟨(h s hs).1, fun c hc => ((h s hs).2.1 c hc).1⟩
  rw [pathSegs_join hne hch, normSegs_clean _ (fun s hs => (h s hs).2.2),
    if_neg hne, if_neg (joinWith_head_ne hne hch)]

theorem commonPrefixLen_self_append (cs x : List Str) :
    commonPrefixLen cs (cs ++ x) = cs.length := by
  induction cs with
  | nil =>
    cases x with
    | nil => rfl
    | cons y u => rfl
  | cons c t ih =>
    show commonPrefixLen (c :: t) (c :: (t ++ x)) = t.length + 1
    simp [commonPrefixLen, ih]

theorem pathRelative_append {cs rest : List Str} (hrest : rest ≠ [])
    (hcs : ∀ s ∈ cs, cleanSeg s) (hr : ∀ s ∈ rest, cleanSeg s) :
    pathRelative ('/' :: joinWith '/' cs) ('/' :: joinWith '/' (cs ++ rest))
      = joinWith '/' rest := by
  simp only [pathRelative]
  rw [normSegs_pathSegs_abs hcs,
    normSegs_pathSegs_abs (by
      intro s hs
      rcases List.mem_append.mp hs with h1 | h1
      · exact hcs s h1
      · exact hr s h1),
    commonPrefixLen_self_append]
  simp [List.drop_left]

theorem pathDirname_join {ds : List Str} {fname : Str}
    (h : ∀ s ∈ ds ++ [fname], cleanSeg s) :
    pathDirname (joinWith '/' (ds ++ [fname]))
      = if ds = [] then kw "." else joinWith '/' ds := by
  have hch : ∀ s ∈ ds ++ [fname], s ≠ [] ∧ ∀ c ∈ s, c ≠ '/' :=
    fun s hs => ⟨(h s hs).1, fun c hc => ((h s hs).2.1 c hc).1⟩
  have hhead := joinWith_head_ne (by simp) hch
  simp only [pathDirname]
  rw [pathSegs_join (by simp) hch]
  have hdrop : (ds ++ [fname]).dropLast = ds := by simp
  rw [hdrop]
  cases ds with
  | nil => rw [if_neg hhead, if_pos rfl]
  | cons d t =>
    rw [if_neg (by simp : ¬(d :: t = []))]
    show (if List.head? (joinWith '/' (d :: t ++ [fname])) = some '/'
        then '/' :: joinWith '/' (d :: t) else joinWith '/' (d :: t)) = joinWith '/' (d :: t)
    rw [if_neg hhead]

theorem joinWith_append_single (sep : Char) {ds : List Str} (h : ds ≠ []) (y : Str) :
    joinWith sep ds ++ sep :: y = joinWith sep (ds ++ [y]) := by
  induction ds with
  | nil => exact absurd rfl h
  | cons d t ih =>
    cases t with
    | nil => rfl
    | cons e u =>
      show (d ++ sep :: joinWith sep (e :: u)) ++ sep :: y
          = d ++ sep :: joinWith sep (e :: u ++ [y])
      rw [← ih (by simp)]
      simp

theorem normalizePathSeparators_id {p : Str} (h : '\\' ∉ p) :
    normalizePathSeparators p = p := by
  unfold normalizePathSeparators
  have hm : ∀ c ∈ p, (if c = '\\' then '/' else c) = c := by
    intro c hc
    rw [if_neg]
    intro e
    exact h (e ▸ hc)
  rw [List.map_congr_left hm, List.map_id']

theorem backslash_not_mem_sanitizeSlug (s : Str) : '\\' ∉ sanitizeSlug s := by
  intro hmem
  unfold sanitizeSlug at hmem
  split at hmem
  · rcases mem_joinWith hmem with h1 | ⟨seg, hseg, hc⟩
    · exact absurd h1 (by decide)
    · have hseg2 := List.mem_filter.mp hseg
      obtain ⟨v, _, hv⟩ := List.mem_map.mp hseg2.1
      have hall := (sanitizeSlugSegment_clean v).2.1
      rw [hv] at hall
      have := hall _ hc
      exact absurd this (by decide)
  · have := (sanitizeSlugSegment_clean s).2.1 _ hmem
    exact absurd this (by decide)

theorem pathJoin_dir_file {ds : List Str} {b : Str} (hds : ds ≠ [])
    (hclean : ∀ s ∈ ds, cleanSeg s) (hb : b ≠ []) (hbc : ∀ c ∈ b, c ≠ '/')
    (hbb : ∀ c ∈ b, c ≠ '\\') (hbdot : b ≠ kw "." ∧ b ≠ kw "..") :
    pathJoin [joinWith '/' ds, b] = joinWith '/' (ds ++ [b]) := by
  obtain ⟨d, t, rfl⟩ : ∃ d t, ds = d :: t := by
    cases ds with
    | nil => exact absurd rfl hds
    | cons d t => exact ⟨d, t, rfl⟩
  have hd := hclean d (List.mem_cons_self d t)
  simp only [pathJoin]
  have hfilter : ([joinWith '/' (d :: t), b]).filter (· ≠ [])
      = [joinWith '/' (d :: t), b] :=
    filter_ne_nil_id (by
      intro x hx
      rcases List.mem_cons.mp hx with h1 | h1
      · rw [h1]; exact joinWith_ne_nil hd.1
      · rw [List.mem_singleton.mp h1]; exact hb)
  rw [hfilter]
  have hj : joinWith '/' [joinWith '/' (d :: t), b] = joinWith '/' (d :: t ++ [b]) := by
    show joinWith '/' (d :: t) ++ '/' :: b = _
    exact joinWith_append_single '/' (by simp) b
  rw [hj]
  have hcleanall : ∀ s ∈ d :: t ++ [b], cleanSeg s := by
    intro s hs
    rcases List.mem_cons.mp hs with h1 | h1
    · rw [h1]; exact hclean d (List.mem_cons_self d t)
    · rcases List.mem_append.mp h1 with h2 | h2
      · exact hclean s (List.mem_cons_of_mem d h2)
      · rw [List.mem_singleton.mp h2]
        exact ⟨hb, fun c hc => ⟨hbc c hc, hbb c hc⟩, hbdot.1, hbdot.2⟩
  have hne2 : joinWith '/' (d :: t ++ [b]) ≠ [] := joinWith_ne_nil hd.1
  rw [if_neg hne2]
  exact pathNormalize_rel_clean (by simp) hcleanall

/-- C4 is refuted on its final sentence: a sanitized slug containing a
path separator is not used verbatim as the output path — `.html` is
appended to it. -/
theorem createPlan_sep_slug_counterexample :
    (createPlan {} (fun s => s) (fun s => s) (fun s => s) (kw "/content")
        (kw "/docs") (kw "en") [kw "en"] (kw "/content/anything.md")
        (kw "---\nslug: shop/silks\n---\nBody")).relativeOutput = kw "shop/silks.html" ∧
    sanitizeSlug (kw "shop/silks") = kw "shop/silks" ∧
    kw "shop/silks.html" ≠ kw "shop/silks" :=
  ⟨by decide, by decide, by decide⟩

/-- C4 (amended): for a source file `/cs.../ds.../fname` under the content
root `/cs...`, the planned relative output preserves the full source
directory tree below the content root when the sanitized slug has no
path separator (`ds.../slug.html`); when the slug does contain a
separator, the output is the slug itself with `.html` appended (not the
slug verbatim).  In particular `content/house-rules/rope-jam.md` with
front matter `slug: rope-jam` produces `docs/house-rules/rope-jam.html`. -/
theorem createPlan_directory_preservation (dm : DefaultMeta)
    (render obf utm : Str → Str) (outputDir defaultLang : Str)
    (supportedLangs : List Str) (cs ds : List Str) (fname raw : Str)
    (hclean : ∀ s ∈ cs ++ ds ++ [fname], cleanSeg s) :
    (createPlan dm render obf utm ('/' :: joinWith '/' cs) outputDir defaultLang
        supportedLangs ('/' :: joinWith '/' (cs ++ ds ++ [fname])) raw).relativeOutput =
      (if (sanitizeSlug (((extractFrontMatter raw).2).slug.getD
            (extractSlugFromPath ('/' :: joinWith '/' (cs ++ ds ++ [fname]))))).contains '/'
       then sanitizeSlug (((extractFrontMatter raw).2).slug.getD
            (extractSlugFromPath ('/' :: joinWith '/' (cs ++ ds ++ [fname])))) ++ kw ".html"
       else joinWith '/' (ds ++ [sanitizeSlug (((extractFrontMatter raw).2).slug.getD
            (extractSlugFromPath ('/' :: joinWith '/' (cs ++ ds ++ [fname])))) ++ kw ".html"])) ∧
    (createPlan {} (fun s => s) (fun s => s) (fun s => s) (kw "/content") (kw "/docs")
        (kw "en") [kw "en"] (kw "/content/house-rules/rope-jam.md")
        (kw "---\nslug: rope-jam\n---\nBody")).outputPath
      = kw "/docs/house-rules/rope-jam.html" := by
  refine ⟨?_, by decide⟩
  have hcs : ∀ s ∈ cs, cleanSeg s :=
    fun s hs => hclean s (List.mem_append_left [fname] (List.mem_append_left ds hs))
  have hrest : ∀ s ∈ ds ++ [fname], cleanSeg s := by
    intro s hs
    rcases List.mem_append.mp hs with h1 | h1
    · exact hclean s (List.mem_append_left [fname] (List.mem_append_right cs h1))
    · exact hclean s (List.mem_append_right (cs ++ ds) h1)
  have hds_clean : ∀ s ∈ ds, cleanSeg s :=
    fun s hs => hrest s (List.mem_append_left [fname] hs)
  have hfp : pathResolveAbs ('/' :: joinWith '/' (cs ++ ds ++ [fname]))
      = '/' :: joinWith '/' (cs ++ ds ++ [fname]) :=
    pathNormalize_abs_clean (by simp) hclean
  have hrel : pathRelative ('/' :: joinWith '/' cs)
      ('/' :: joinWith '/' (cs ++ ds ++ [fname])) = joinWith '/' (ds ++ [fname]) := by
    rw [List.append_assoc]
    exact pathRelative_append (by simp) hcs hrest
  have hdir : pathDirname (joinWith '/' (ds ++ [fname]))
      = if ds = [] then kw "." else joinWith '/' ds := pathDirname_join hrest
  simp only [createPlan]
  rw [hfp, hrel, hdir]
  by_cases hsep : (sanitizeSlug (((extractFrontMatter raw).2).slug.getD
      (extractSlugFromPath ('/' :: joinWith '/' (cs ++ ds ++ [fname]))))).contains '/' = true
  · simp only [hsep, if_true]
    apply normalizePathSeparators_id
    intro hmem
    rcases List.mem_append.mp hmem with h1 | h1
    · exact backslash_not_mem_sanitizeSlug _ h1
    · exact absurd h1 (by decide)
  · rw [Bool.not_eq_true] at hsep
    simp only [hsep, Bool.false_eq_true, if_false]
    by_cases hds : ds = []
    · subst hds
      rw [if_pos (rfl : ([] : List Str) = [])]
      rw [if_neg (by simp : ¬(kw "." ≠ kw "."))]
      rfl
    · rw [if_neg hds]
      have hb5 : (kw ".html").length = 5 := by decide
      have hbne : sanitizeSlug (((extractFrontMatter raw).2).slug.getD
          (extractSlugFromPath ('/' :: joinWith '/' (cs ++ ds ++ [fname]))))
            ++ kw ".html" ≠ [] := by
        intro e
        have hl := congrArg List.length e
        rw [List.length_append, hb5] at hl
        simp at hl
      have hbc : ∀ c ∈ sanitizeSlug (((extractFrontMatter raw).2).slug.getD
          (extractSlugFromPath ('/' :: joinWith '/' (cs ++ ds ++ [fname]))))
            ++ kw ".html", c ≠ '/' := by
        intro c hc
        rcases List.mem_append.mp hc with h1 | h1
        · intro e
          subst e
          rw [contains_iff_mem.mpr h1] at hsep
          exact absurd hsep (by simp)
        · exact (by decide : ∀ c ∈ kw ".html", c ≠ '/') c h1
      have hbb : ∀ c ∈ sanitizeSlug (((extractFrontMatter raw).2).slug.getD
          (extractSlugFromPath ('/' :: joinWith '/' (cs ++ ds ++ [fname]))))
            ++ kw ".html", c ≠ '\\' := by
        intro c hc
        rcases List.mem_append.mp hc with h1 | h1
        · intro e
          subst e
          exact backslash_not_mem_sanitizeSlug _ h1
        · exact (by decide : ∀ c ∈ kw ".html", c ≠ '\\') c h1
      have hbdot : sanitizeSlug (((extractFrontMatter raw).2).slug.getD
          (extractSlugFromPath ('/' :: joinWith '/' (cs ++ ds ++ [fname]))))
            ++ kw ".html" ≠ kw "." ∧
          sanitizeSlug (((extractFrontMatter raw).2).slug.getD
          (extractSlugFromPath ('/' :: joinWith '/' (cs ++ ds ++ [fname]))))
            ++ kw ".html" ≠ kw ".." := by
        constructor
        · intro e
          have hl := congrArg List.length e
          rw [List.length_append, hb5] at hl
          have h1 : (kw ".").length = 1 := by decide
          rw [h1] at hl
          omega
        · intro e
          have hl := congrArg List.length e
          rw [List.length_append, hb5] at hl
          have h2 : (kw "..").length = 2 := by decide
          rw [h2] at hl
          omega
      rw [if_pos (joinWith_ne_dot hds hds_clean)]
      rw [pathJoin_dir_file hds hds_clean hbne hbc hbb hbdot]
      apply normalizePathSeparators_id
      intro hmem
      rcases mem_joinWith hmem with h1 | ⟨seg, hseg, hc⟩
      · exact absurd h1 (by decide)
      · rcases List.mem_append.mp hseg with h2 | h2
        · exact ((hds_clean seg h2).2.1 _ hc).2 rfl
        · rw [List.mem_singleton.mp h2] at hc
          rcases List.mem_append.mp hc with h3 | h3
          · exact backslash_not_mem_sanitizeSlug _ h3
          · exact absurd h3 (by decide)

/-- Concrete instantiation of the directory-preservation theorem on
`content/house-rules/rope-jam.md`. -/
theorem createPlan_directory_preservation_witness :
    (∀ s ∈ [kw "content"] ++ [kw "house-rules"] ++ [kw "rope-jam.md"], cleanSeg s) ∧
    ((createPlan {} (fun s => s) (fun s => s) (fun s => s)
        ('/' :: joinWith '/' [kw "content"]) (kw "/docs") (kw "en") [kw "en"]
        ('/' :: joinWith '/' ([kw "content"] ++ [kw "house-rules"] ++ [kw "rope-jam.md"]))
        (kw "---\nslug: rope-jam\n---\nBody")).relativeOutput =
      (if (sanitizeSlug (((extractFrontMatter (kw "---\nslug: rope-jam\n---\nBody")).2).slug.getD
            (extractSlugFromPath ('/' :: joinWith '/'
              ([kw "content"] ++ [kw "house-rules"] ++ [kw "rope-jam.md"]))))).contains '/'
       then sanitizeSlug (((extractFrontMatter (kw "---\nslug: rope-jam\n---\nBody")).2).slug.getD
            (extractSlugFromPath ('/' :: joinWith '/'
              ([kw "content"] ++ [kw "house-rules"] ++ [kw "rope-jam.md"])))) ++ kw ".html"
       else joinWith '/' ([kw "house-rules"] ++
          [sanitizeSlug (((extractFrontMatter (kw "---\nslug: rope-jam\n---\nBody")).2).slug.getD
            (extractSlugFromPath ('/' :: joinWith '/'
              ([kw "content"] ++ [kw "house-rules"] ++ [kw "rope-jam.md"])))) ++ kw ".html"])) ∧
     (createPlan {} (fun s => s) (fun s => s) (fun s => s) (kw "/content") (kw "/docs")
        (kw "en") [kw "en"] (kw "/content/house-rules/rope-jam.md")
        (kw "---\nslug: rope-jam\n---\nBody")).outputPath
      = kw "/docs/house-rules/rope-jam.html") :=
  ⟨by decide, createPlan_directory_preservation {} (fun s => s) (fun s => s) (fun s => s)
      (kw "/docs") (kw "en") [kw "en"] [kw "content"] [kw "house-rules"]
      (kw "rope-jam.md") (kw "---\nslug: rope-jam\n---\nBody") (by decide)⟩

/-! ## `src/template.ts` (the pure core of `renderTemplate`)

Template loading, caching, and the placeholder warning are I/O; the URL
library enters through the opaque parameters `toAbs` (absolute URL of a
relative path) and `pathnameOf` (`new URL(href).pathname`). -/

/-- ASCII uppercasing (`String.prototype.toUpperCase` on the ASCII
range). -/
def asciiToUpper (c : Char) : Char :=
  if 'a' ≤ c ∧ c ≤ 'z' then Char.ofNat (c.toNat - 32) else c

/-- `parts.join(sep)` for a string separator. -/
def joinWithStr (sep : Str) : List Str → Str
  | [] => []
  | [l] => l
  | l :: ls => l ++ sep ++ joinWithStr sep ls

/-- JS truthiness of an optional string-or-boolean value. -/
def sbTruthy : Option StrOrBool → Bool
  | none => false
  | some (.bool b) => b
  | some (.str s) => s ≠ []

/-- `escapeHtml` (falsy input gives the empty string). -/
def escapeHtml (text : Str) : Str :=
  if text = [] then []
  else
    jsReplaceAll (jsReplaceAll (jsReplaceAll (jsReplaceAll (jsReplaceAll text
      (kw "&") (kw "&amp;"))
      (kw "<") (kw "&lt;"))
      (kw ">") (kw "&gt;"))
      (kw "\"") (kw "&quot;"))
      [Char.ofNat 39] (kw "&#039;")

/-- `generateHeadTags` (the `ogImage` warning is I/O only). -/
def generateHeadTags (toAbs : Str → Str) (meta : PageMeta)
    (canonicalUrl pageUrl : Str) (alternates : Option (List ALink)) : Str :=
  let tags : List Str :=
    [kw "    <meta name=\"description\" content=\"" ++ escapeHtml meta.description ++ kw "\" />",
     kw "    <link rel=\"canonical\" href=\"" ++ canonicalUrl ++ kw "\" />",
     kw "    <meta property=\"og:url\" content=\"" ++ pageUrl ++ kw "\" />",
     kw "    <meta property=\"og:title\" content=\"" ++ escapeHtml meta.title ++ kw "\" />",
     kw "    <meta property=\"og:description\" content=\"" ++ escapeHtml meta.description ++ kw "\" />"] ++
    (match meta.ogImage with
     | some v => if v = [] then [] else
        [kw "    <meta property=\"og:image\" content=\"" ++ toAbs v ++ kw "\" />"]
     | none => []) ++
    [kw "    <meta name=\"twitter:card\" content=\"summary_large_image\" />",
     kw "    <meta name=\"twitter:title\" content=\"" ++ escapeHtml meta.title ++ kw "\" />",
     kw "    <meta name=\"twitter:description\" content=\"" ++ escapeHtml meta.description ++ kw "\" />"] ++
    (match meta.twitterImage with
     | some v => if v = [] then [] else
        [kw "    <meta name=\"twitter:image\" content=\"" ++ toAbs v ++ kw "\" />"]
     | none => []) ++
    (match alternates with
     | some alts => (alts.filter (fun alt => alt.lang ≠ kw "x-default")).map
        (fun alt => kw "    <link rel=\"alternate\" href=\"" ++ alt.href ++
          kw "\" hreflang=\"" ++ alt.lang ++ kw "\" />")
     | none => []) ++
    (if sbTruthy meta.noindex then
      [kw "    <meta name=\"robots\" content=\"noindex, nofollow\" />"] else [])
  joinWith '\n' tags

/-- `renderLanguageSwitcher` (the join separator reproduces the source's
two-character `U+00C2 U+00B7` literal). -/
def renderLanguageSwitcher (pathnameOf : Str → Str) (currentLang : Str)
    (alternates : List ALink) : Str :=
  let available := alternates.filter (fun alt => alt.lang ≠ kw "x-default")
  if available.length ≤ 1 then []
  else
    let pills := joinWithStr
      (kw "<span class=\"text-slate-400\">" ++ [Char.ofNat 194, Char.ofNat 183] ++
        kw "</span>")
      (available.map (fun alt =>
        if alt.lang = currentLang then
          kw "<span class=\"inline-flex items-center rounded-full bg-brand/10 px-3 py-1 text-xs font-semibold text-brand\">" ++
            alt.lang.map asciiToUpper ++ kw "</span>"
        else
          kw "<a href=\"" ++ pathnameOf alt.href ++
            kw "\" class=\"inline-flex items-center rounded-full border border-brand/30 px-3 py-1 text-xs font-semibold text-brand hover:bg-brand/10\">" ++
            alt.lang.map asciiToUpper ++ kw "</a>"))
    kw "<div class=\"mb-6 flex flex-wrap items-center gap-2\" aria-label=\"Language selector\">" ++
      pills ++ kw "</div>"

/-- The placeholder-substitution chain of `renderTemplate`, in source
order. -/
def substitutedTemplate (template body : Str) (meta : PageMeta)
    (languageSwitcher year : Str) : Str :=
  jsReplaceAll (jsReplaceAll (jsReplaceAll (jsReplaceAll (jsReplaceAll (jsReplaceAll
    (jsReplaceAll (jsReplaceAll (jsReplaceAll template
      (kw "\x7b\x7bTITLE\x7d\x7d") (escapeHtml meta.title))
      (kw "\x7b\x7bLANGUAGE_SWITCHER\x7d\x7d") languageSwitcher)
      (kw "\x7b\x7bLANG\x7d\x7d") (meta.lang.getD (kw "en")))
      (kw "\x7b\x7bBACK_LINK_HREF\x7d\x7d") (escapeHtml meta.backLinkHref))
      (kw "\x7b\x7bBACK_LINK_LABEL\x7d\x7d") (escapeHtml meta.backLinkLabel))
      (kw "\x7b\x7bSIDEBAR_TITLE\x7d\x7d") (escapeHtml meta.sidebarTitle))
      (kw "\x7b\x7bSIDEBAR_SUMMARY\x7d\x7d") (escapeHtml meta.sidebarSummary))
      (kw "\x7b\x7bYEAR\x7d\x7d") year)
      (kw "\x7b\x7bBODY\x7d\x7d") body

/-- Index of the first occurrence of `pat` in `s`. -/
def findSubIdx (pat : Str) : Str → Option Nat
  | [] => if pat = [] then some 0 else none
  | c :: cs =>
    if pat.isPrefixOf (c :: cs) then some 0
    else (findSubIdx pat cs).map (· + 1)

/-- The fully substituted template, language switcher included. -/
def renderedOf (pathnameOf : Str → Str) (template body : Str) (meta : PageMeta)
    (year : Str) (alternates : Option (List ALink)) : Str :=
  substitutedTemplate template body meta
    (match alternates with
     | some alts => renderLanguageSwitcher pathnameOf (meta.lang.getD (kw "en")) alts
     | none => []) year

/-- The pure core of `renderTemplate`: substitute, then require a
case-insensitive `</head>` and inject the head tags right before its
first occurrence. -/
def renderTemplate (pathnameOf toAbs : Str → Str) (template body : Str)
    (meta : PageMeta) (templatePath canonicalUrl pageUrl year : Str)
    (alternates : Option (List ALink)) : Except Str Str :=
  let rendered := renderedOf pathnameOf template body meta year alternates
  match findSubIdx (kw "</head>") (rendered.map asciiToLower) with
  | none => .error (kw "Template " ++ templatePath ++ kw " is missing </head> tag")
  | some i =>
    .ok (rendered.take i ++
      generateHeadTags toAbs meta canonicalUrl pageUrl alternates ++
      '\n' :: rendered.drop i)

theorem findSubIdx_none_iff {pat s : Str} :
    findSubIdx pat s = none ↔ occursB pat s = false := by
  induction s with
  | nil =>
    cases hp : pat with
    | nil => simp [findSubIdx, occursB, hp]
    | cons c cs => simp [findSubIdx, occursB, hp, List.isEmpty]
  | cons c cs ih =>
    by_cases hpre : pat.isPrefixOf (c :: cs) = true
    · simp [findSubIdx, occursB, hpre]
    · rw [Bool.not_eq_true] at hpre
      simp [findSubIdx, occursB, hpre, ih]

theorem findSubIdx_some_spec {pat s : Str} {i : Nat}
    (h : findSubIdx pat s = some i) :
    pat.isPrefixOf (s.drop i) = true ∧
    ∀ j, j < i → pat.isPrefixOf (s.drop j) = false := by
  induction s generalizing i with
  | nil =>
    simp only [findSubIdx] at h
    split at h
    · rename_i hp
      injection h with h0
      subst h0
      subst hp
      exact ⟨by simp, fun j hj => absurd hj (by omega)⟩
    · exact absurd h (by simp)
  | cons c cs ih =>
    simp only [findSubIdx] at h
    split at h
    · rename_i hpre
      injection h with h0
      subst h0
      exact ⟨by simpa using hpre, fun j hj => absurd hj (by omega)⟩
    · rename_i hpre
      rcases hrec : findSubIdx pat cs with _ | i'
      · rw [hrec] at h
        exact absurd h (by simp)
      · rw [hrec] at h
        simp only [Option.map_some'] at h
        injection h with h0
        subst h0
        obtain ⟨h1, h2⟩ := ih hrec
        refine ⟨h1, ?_⟩
        intro j hj
        cases j with
        | zero =>
          rw [Bool.not_eq_true] at hpre
          exact hpre
        | succ j' => exact h2 j' (by omega)

/-- C8: the render fails (with the missing-head-tag error) exactly when
the placeholder-substituted template has no case-insensitive `</head>`;
otherwise it succeeds with the generated head-tag block inserted
immediately before the first case-insensitive `</head>` (in particular
missing placeholders never make it fail). -/
theorem renderTemplate_head_spec (pathnameOf toAbs : Str → Str)
    (template body : Str) (meta : PageMeta)
    (templatePath canonicalUrl pageUrl year : Str)
    (alternates : Option (List ALink)) :
    ((∃ e, renderTemplate pathnameOf toAbs template body meta templatePath
        canonicalUrl pageUrl year alternates = .error e) ↔
      occursB (kw "</head>")
        ((renderedOf pathnameOf template body meta year alternates).map
          asciiToLower) = false) ∧
    (∀ i, findSubIdx (kw "</head>")
        ((renderedOf pathnameOf template body meta year alternates).map
          asciiToLower) = some i →
      renderTemplate pathnameOf toAbs template body meta templatePath
          canonicalUrl pageUrl year alternates =
        .ok ((renderedOf pathnameOf template body meta year alternates).take i ++
          generateHeadTags toAbs meta canonicalUrl pageUrl alternates ++
          '\n' :: (renderedOf pathnameOf template body meta year alternates).drop i) ∧
      (kw "</head>").isPrefixOf
        (((renderedOf pathnameOf template body meta year alternates).map
          asciiToLower).drop i) = true ∧
      ∀ j, j < i → (kw "</head>").isPrefixOf
        (((renderedOf pathnameOf template body meta year alternates).map
          asciiToLower).drop j) = false) := by
  constructor
  · constructor
    · rintro ⟨e, he⟩
      rcases hidx : findSubIdx (kw "</head>")
          ((renderedOf pathnameOf template body meta year alternates).map
            asciiToLower) with _ | i
      · exact findSubIdx_none_iff.mp hidx
      · simp only [renderTemplate] at he
        rw [hidx] at he
        exact absurd he (by simp)
    · intro hocc
      refine ⟨kw "Template " ++ templatePath ++ kw " is missing </head> tag", ?_⟩
      simp only [renderTemplate]
      rw [findSubIdx_none_iff.mpr hocc]
  · intro i hi
    refine ⟨?_, (findSubIdx_some_spec hi).1, (findSubIdx_some_spec hi).2⟩
    simp only [renderTemplate]
    rw [hi]

/-- Concrete instantiation of the head-injection theorem: a template
whose closing head tag is written `</HEAD>` is found case-insensitively
at index 12 and receives the injected block there. -/
theorem renderTemplate_head_spec_witness :
    findSubIdx (kw "</head>")
        ((renderedOf (fun s => s) (kw "<html><head></HEAD><body>x</body></html>")
          (kw "B") {} (kw "2026") none).map asciiToLower) = some 12 ∧
    (renderTemplate (fun s => s) (fun s => s)
        (kw "<html><head></HEAD><body>x</body></html>") (kw "B") {} (kw "T")
        (kw "C") (kw "P") (kw "2026") none =
      .ok ((renderedOf (fun s => s) (kw "<html><head></HEAD><body>x</body></html>")
          (kw "B") {} (kw "2026") none).take 12 ++
        generateHeadTags (fun s => s) {} (kw "C") (kw "P") none ++
        '\n' :: (renderedOf (fun s => s) (kw "<html><head></HEAD><body>x</body></html>")
          (kw "B") {} (kw "2026") none).drop 12) ∧
      (kw "</head>").isPrefixOf
        (((renderedOf (fun s => s) (kw "<html><head></HEAD><body>x</body></html>")
          (kw "B") {} (kw "2026") none).map asciiToLower).drop 12) = true ∧
      ∀ j, j < 12 → (kw "</head>").isPrefixOf
        (((renderedOf (fun s => s) (kw "<html><head></HEAD><body>x</body></html>")
          (kw "B") {} (kw "2026") none).map asciiToLower).drop j) = false) :=
  ⟨by decide,
   (renderTemplate_head_spec (fun s => s) (fun s => s)
      (kw "<html><head></HEAD><body>x</body></html>") (kw "B") {} (kw "T")
      (kw "C") (kw "P") (kw "2026") none).2 12 (by decide)⟩

/-! ## `src/link-checker.ts` (pure core)

The filesystem enters as two opaque predicates: `files p` (a file exists
at `p`) and `dirs p` (a directory exists at `p`); `stat` succeeds on
either. -/

/-- Everything before the first occurrence of `c`
(`s.split(c)[0]`). -/
def takeUntilChar (c : Char) (s : Str) : Str := s.takeWhile (fun x => x ≠ c)

/-- `isSkippableHref`. -/
def isSkippableHref (href : Str) : Bool :=
  href = [] ||
  (kw "mailto:").isPrefixOf href || (kw "tel:").isPrefixOf href ||
  (kw "javascript:").isPrefixOf href || (kw "data:").isPrefixOf href ||
  (kw "http://").isPrefixOf href || (kw "https://").isPrefixOf href

/-- `resolveInternalPath`: one resolved candidate per href. -/
def resolveInternalPath (href fromFile outputDir : Str) : Str :=
  let withoutHash := takeUntilChar '#' href
  let withoutQuery := takeUntilChar '?' withoutHash
  if withoutQuery.head? = some '/' then
    let relativePath := collapseRuns (fun c => c = '/') '/' (withoutQuery.drop 1)
    pathNormalize (pathJoin (outputDir :: splitOnChar '/' relativePath))
  else if ¬ (kw "../").isPrefixOf withoutQuery ∧ withoutQuery.head? ≠ some '/' then
    pathNormalize (pathJoin [outputDir, withoutQuery])
  else
    pathNormalize (pathResolveFrom (pathDirname fromFile) withoutQuery)

/-- `stat` succeeds: a file or a directory exists at `p`. -/
def statExists (files dirs : Str → Bool) (p : Str) : Bool := files p || dirs p

/-- One variation check of `checkLinks`: `stat` it, redirect a directory
to its `index.html`, and `stat` the result. -/
def variationOk (files dirs : Str → Bool) (v : Str) : Bool :=
  let nv := pathNormalize v
  if statExists files dirs nv then
    statExists files dirs (if dirs nv then pathJoin [nv, kw "index.html"] else nv)
  else false

/-- The three path variations tried for a resolved href, in order. -/
def pathVariations (resolved : Str) : List Str :=
  let n := pathNormalize resolved
  [n, n ++ kw ".html", pathJoin [n, kw "index.html"]]

/-- Whether some variation of the single resolved candidate exists. -/
def hrefFound (files dirs : Str → Bool) (resolved : Str) : Bool :=
  (pathVariations resolved).any (variationOk files dirs)

/-- A non-skippable, non-anchor href is reported broken exactly when no
variation of its resolved path exists. -/
def hrefBroken (files dirs : Str → Bool) (href fromFile outputDir : Str) : Bool :=
  !hrefFound files dirs (resolveInternalPath href fromFile outputDir)

/-- The candidate list §4.7's text describes: root-relative hrefs resolve
against the output root; relative hrefs without parent traversal try the
output root first and then fall back to the referencing document's own
directory. -/
def specCandidates (href fromFile outputDir : Str) : List Str :=
  let wq := takeUntilChar '?' (takeUntilChar '#' href)
  if wq.head? = some '/' then
    [pathNormalize (pathJoin (outputDir ::
      splitOnChar '/' (collapseRuns (fun c => c = '/') '/' (wq.drop 1))))]
  else if ¬ (kw "../").isPrefixOf wq then
    [pathNormalize (pathJoin [outputDir, wq]),
     pathNormalize (pathResolveFrom (pathDirname fromFile) wq)]
  else
    [pathNormalize (pathResolveFrom (pathDirname fromFile) wq)]

/-- Brokenness under the spec's described algorithm. -/
def specHrefBroken (files dirs : Str → Bool) (href fromFile outputDir : Str) : Bool :=
  !(specCandidates href fromFile outputDir).any
    (fun cand => (pathVariations cand).any (variationOk files dirs))

/-- C5 is refuted: the href `b` from `/out/sub/a.html` with output root
`/out` is reported broken even though `/out/sub/b.html` exists — the
checker resolves plain relative hrefs against the output root only and
never falls back to the referencing document's directory, while the
spec's algorithm would find the target. -/
theorem resolveInternalPath_counterexample :
    hrefBroken (fun p => p = kw "/out/sub/b.html") (fun _ => false)
      (kw "b") (kw "/out/sub/a.html") (kw "/out") = true ∧
    specHrefBroken (fun p => p = kw "/out/sub/b.html") (fun _ => false)
      (kw "b") (kw "/out/sub/a.html") (kw "/out") = false :=
  ⟨by decide, by decide⟩

/-- C5 (amended): an absolute-rooted href resolves against the output
root, and a relative href without parent traversal resolves against the
output root only — independently of which document references it, with
no fallback to the document's directory; the href is reported broken
exactly when none of the three variations (literal, `.html`-suffixed,
`index.html`-joined) of that single resolved path exists. -/
theorem resolveInternalPath_root_only (files dirs : Str → Bool)
    (href fromFile fromFile' outputDir : Str)
    (habs : (takeUntilChar '?' (takeUntilChar '#' href)).head? ≠ some '/')
    (hpar : (kw "../").isPrefixOf (takeUntilChar '?' (takeUntilChar '#' href)) = false) :
    resolveInternalPath href fromFile outputDir =
      pathNormalize (pathJoin [outputDir, takeUntilChar '?' (takeUntilChar '#' href)]) ∧
    resolveInternalPath href fromFile outputDir =
      resolveInternalPath href fromFile' outputDir ∧
    (hrefBroken files dirs href fromFile outputDir = false ↔
      ∃ v ∈ pathVariations (resolveInternalPath href fromFile outputDir),
        variationOk files dirs v = true) := by
  have hres : ∀ g : Str, resolveInternalPath href g outputDir =
      pathNormalize (pathJoin [outputDir, takeUntilChar '?' (takeUntilChar '#' href)]) := by
    intro g
    simp only [resolveInternalPath]
    rw [if_neg habs, if_pos ⟨by simp [hpar], habs⟩]
  refine ⟨hres fromFile, (hres fromFile).trans (hres fromFile').symm, ?_⟩
  simp [hrefBroken, hrefFound, List.any_eq_true]

/-- Concrete instantiation of the root-only resolution theorem on the
href `img/logo.png`. -/
theorem resolveInternalPath_root_only_witness :
    ((takeUntilChar '?' (takeUntilChar '#' (kw "img/logo.png"))).head? ≠ some '/') ∧
    ((kw "../").isPrefixOf (takeUntilChar '?' (takeUntilChar '#' (kw "img/logo.png"))) = false) ∧
    (resolveInternalPath (kw "img/logo.png") (kw "/out/page.html") (kw "/out") =
      pathNormalize (pathJoin [kw "/out",
        takeUntilChar '?' (takeUntilChar '#' (kw "img/logo.png"))]) ∧
     resolveInternalPath (kw "img/logo.png") (kw "/out/page.html") (kw "/out") =
      resolveInternalPath (kw "img/logo.png") (kw "/out/sub/other.html") (kw "/out") ∧
     (hrefBroken (fun p => p = kw "/out/img/logo.png") (fun _ => false)
        (kw "img/logo.png") (kw "/out/page.html") (kw "/out") = false ↔
      ∃ v ∈ pathVariations (resolveInternalPath (kw "img/logo.png")
          (kw "/out/page.html") (kw "/out")),
        variationOk (fun p => p = kw "/out/img/logo.png") (fun _ => false) v = true)) :=
  ⟨by decide, by decide,
   resolveInternalPath_root_only (fun p => p = kw "/out/img/logo.png") (fun _ => false)
     (kw "img/logo.png") (kw "/out/page.html") (kw "/out/sub/other.html") (kw "/out")
     (by decide) (by decide)⟩

/-! ## `src/translations.ts` (pure core of `translateMarkdownBody`)

The DeepL call is the opaque translator `tr : Str → Str`. -/

/-- Decimal digits of a natural number (template-literal rendering of the
link index); the fuel bounds the digit count. -/
def natDigitsGo : Nat → Nat → Str
  | 0, _ => []
  | fuel + 1, n =>
    if n < 10 then [Char.ofNat (48 + n)]
    else natDigitsGo fuel (n / 10) ++ [Char.ofNat (48 + n % 10)]

def natDigits (n : Nat) : Str := natDigitsGo (n + 1) n

/-- The placeholder a link receives before translation. -/
def linkPlaceholder (i : Nat) : Str := kw "@@LINK_" ++ natDigits i ++ kw "@@"

/-- One attempted match of the link regex at the current position:
a nonempty bracket-free text, then a nonempty `)`-free href. -/
def tryMatchLink : Str → Option (Str × Str × Str)
  | '[' :: rest =>
    let text := rest.takeWhile (fun c => c ≠ '[' ∧ c ≠ ']')
    match rest.drop text.length with
    | ']' :: '(' :: rest2 =>
      if text = [] then none
      else
        let href := rest2.takeWhile (fun c => c ≠ ')')
        match rest2.drop href.length with
        | ')' :: rest3 => if href = [] then none else some (text, href, rest3)
        | _ => none
    | _ => none
  | _ => none

/-- The global link-pattern scan of `translateMarkdownBody`: produces the
body with placeholders substituted and the ordered (text, href) list; the
fuel bounds the unscanned length. -/
def scanLinksGo : Nat → Nat → Str → Str × List (Str × Str)
  | 0, _, _ => ([], [])
  | _ + 1, _, [] => ([], [])
  | fuel + 1, i, c :: cs =>
    match tryMatchLink (c :: cs) with
    | some (text, href, rest3) =>
      let p := scanLinksGo fuel (i + 1) rest3
      (linkPlaceholder i ++ p.1, (text, href) :: p.2)
    | none =>
      let p := scanLinksGo fuel i cs
      (c :: p.1, p.2)

def scanLinks (s : Str) : Str × List (Str × Str) := scanLinksGo s.length 0 s

/-- `translateField` (pure): a blank value is returned untranslated. -/
def translateField (tr : Str → Str) (value : Str) : Str :=
  if jsTrim value = [] then value else tr value

/-- The re-inserted link text for one scanned link. -/
def linkSeg (tr : Str → Str) (th : Str × Str) : Str :=
  kw "[" ++ translateField tr th.1 ++ kw "](" ++ th.2 ++ kw ")"

/-- The final `reduce` of `translateMarkdownBody`: each link's
placeholder is replaced (first occurrence, `$`-substitution applying) by
its re-rendered form. -/
def applyLinks (tr : Str → Str) : Nat → List (Str × Str) → Str → Str
  | _, [], acc => acc
  | start, th :: ls, acc =>
    applyLinks tr (start + 1) ls
      (jsReplaceFirst acc (linkPlaceholder start) (linkSeg tr th))

/-- `translateMarkdownBody` (pure core). -/
def translateMarkdownBody (tr : Str → Str) (body : Str) : Str :=
  applyLinks tr 0 (scanLinks body).2 (translateField tr (scanLinks body).1)

/-- A translated body split into placeholder-free chunks with the
numbered placeholders between them. -/
def withPlaceholders (start : Nat) : List Str → Str
  | [] => []
  | [c] => c
  | c :: rest => c ++ linkPlaceholder start ++ withPlaceholders (start + 1) rest

/-- The same chunks with each placeholder slot holding its re-rendered
link. -/
def withSegs (tr : Str → Str) : List Str → List (Str × Str) → Str
  | [], _ => []
  | c :: _, [] => c
  | c :: rest, th :: ls => c ++ linkSeg tr th ++ withSegs tr rest ls

/-! ## Replacement lemmas for the placeholder fold -/

theorem getSubstGo_dollar_free (m b a : Str) :
    ∀ (fuel : Nat) (r : Str), r.length ≤ fuel → (∀ c ∈ r, c ≠ '$') →
    getSubstGo m b a fuel r = r := by
  intro fuel
  induction fuel with
  | zero =>
    intro r hr _
    have : r = [] := List.eq_nil_of_length_eq_zero (by omega)
    subst this
    rfl
  | succ f ih =>
    intro r hr h
    cases r with
    | nil => rfl
    | cons c rest =>
      have hc := h c (List.mem_cons_self c rest)
      simp only [getSubstGo]
      rw [if_neg hc, ih rest (by simp only [List.length_cons] at hr; omega)
        (fun x hx => h x (List.mem_cons_of_mem c hx))]

theorem getSubst_dollar_free (m b a : Str) {r : Str} (h : ∀ c ∈ r, c ≠ '$') :
    getSubst m b a r = r :=
  getSubstGo_dollar_free m b a r.length r le_rfl h

theorem isPrefixOf_false_of_head_ne {pat s : Str} {c : Char}
    (hp : pat.head? = some c) (hs : s.head? ≠ some c) :
    pat.isPrefixOf s = false := by
  cases pat with
  | nil => simp at hp
  | cons p ps =>
    have hpc : p = c := by simpa using hp
    subst hpc
    cases s with
    | nil => rfl
    | cons b bs =>
      have hbc : b ≠ p := fun e => hs (by simp [e])
      have hf : (p == b) = false := beq_eq_false_iff_ne.mpr (fun e => hbc e.symm)
      show (p == b && ps.isPrefixOf bs) = false
      rw [hf]
      simp

theorem no_prefix_in_clean {pat u w : Str} (hph : pat.head? = some '@')
    (hu : ∀ ch ∈ u, ch ≠ '@') :
    ∀ i, i < u.length → pat.isPrefixOf ((u ++ w).drop i) = false := by
  intro i hi
  rw [List.drop_append_of_le_length (le_of_lt hi)]
  have hne : u.drop i ≠ [] := by
    intro e
    have hl := congrArg List.length e
    rw [List.length_drop] at hl
    simp at hl
    omega
  obtain ⟨d, t, hd⟩ := List.exists_cons_of_ne_nil hne
  rw [hd]
  have hdm : d ∈ u := List.drop_subset i u (by rw [hd]; exact List.mem_cons_self d t)
  refine isPrefixOf_false_of_head_ne hph ?_
  show (d :: (t ++ w)).head? ≠ some '@'
  intro e
  have hda : d = '@' := by simpa using e
  exact hu d hdm hda

/-- Scanning `u ++ pat ++ v` with no earlier match replaces exactly the
designated occurrence. -/
theorem rfGo_scan (pat repl : Str) :
    ∀ (u v preRev : Str) (fuel : Nat),
    (u ++ pat ++ v).length ≤ fuel →
    (∀ i, i < u.length → pat.isPrefixOf ((u ++ pat ++ v).drop i) = false) →
    rfGo pat repl fuel preRev (u ++ pat ++ v)
      = u ++ getSubst pat (preRev.reverse ++ u) v repl ++ v := by
  intro u
  induction u with
  | nil =>
    intro v preRev fuel _ _
    have hpre : pat.isPrefixOf (([] : Str) ++ pat ++ v) = true := by
      rw [List.isPrefixOf_iff_prefix]
      simp
    cases fuel with
    | zero =>
      simp only [rfGo]
      rw [if_pos hpre]
      simp [List.drop_left]
    | succ f =>
      simp only [rfGo]
      rw [if_pos hpre]
      simp [List.drop_left]
  | cons a u' ih =>
    intro v preRev fuel hlen hocc
    cases fuel with
    | zero =>
      exfalso
      simp only [List.cons_append, List.length_cons, List.length_append] at hlen
      omega
    | succ f =>
      have hpre0 := hocc 0 (by simp)
      simp only [rfGo]
      rw [if_neg (by
        rw [Bool.not_eq_true]
        simpa using hpre0)]
      show a :: rfGo pat repl f (a :: preRev) (u' ++ pat ++ v)
          = (a :: u') ++ getSubst pat (preRev.reverse ++ (a :: u')) v repl ++ v
      rw [ih v (a :: preRev) f
        (by simp only [List.cons_append, List.length_cons, List.length_append] at hlen ⊢; omega)
        (fun i hi => by
          have h1 := hocc (i + 1) (by simp only [List.length_cons]; omega)
          simpa using h1)]
      simp [List.append_assoc]

theorem jsReplaceFirst_at {pat : Str} (repl : Str) {u v : Str}
    (hocc : ∀ i, i < u.length → pat.isPrefixOf ((u ++ pat ++ v).drop i) = false) :
    jsReplaceFirst (u ++ pat ++ v) pat repl = u ++ getSubst pat u v repl ++ v := by
  have h := rfGo_scan pat repl u v [] (u ++ pat ++ v).length le_rfl hocc
  simpa [jsReplaceFirst] using h

theorem linkPlaceholder_head (i : Nat) : (linkPlaceholder i).head? = some '@' := rfl

theorem linkSeg_chars {tr : Str → Str} {th : Str × Str}
    (h1 : ∀ ch ∈ translateField tr th.1, ch ≠ '@' ∧ ch ≠ '$')
    (h2 : ∀ ch ∈ th.2, ch ≠ '@' ∧ ch ≠ '$') :
    ∀ ch ∈ linkSeg tr th, ch ≠ '@' ∧ ch ≠ '$' := by
  intro ch hch
  simp only [linkSeg, List.mem_append] at hch
  rcases hch with ((((h3 | h3) | h3) | h3) | h3)
  · exact (by decide : ∀ c ∈ kw "[", c ≠ '@' ∧ c ≠ '$') ch h3
  · exact h1 ch h3
  · exact (by decide : ∀ c ∈ kw "](", c ≠ '@' ∧ c ≠ '$') ch h3
  · exact h2 ch h3
  · exact (by decide : ∀ c ∈ kw ")", c ≠ '@' ∧ c ≠ '$') ch h3

theorem withSegs_merge (tr : Str → Str) (a b : Str) (u : List Str)
    (ls : List (Str × Str)) :
    withSegs tr ((a ++ b) :: u) ls = a ++ withSegs tr (b :: u) ls := by
  cases ls with
  | nil => rfl
  | cons th2 ls2 => simp [withSegs, List.append_assoc]

/-- The placeholder fold on a translated body of interleaved `@`-free
chunks re-renders each link into its slot. -/
theorem applyLinks_chunks (tr : Str → Str) :
    ∀ (links : List (Str × Str)) (chunks : List Str) (start : Nat),
    chunks.length = links.length + 1 →
    (∀ c ∈ chunks, ∀ ch ∈ c, ch ≠ '@') →
    (∀ th ∈ links, (∀ ch ∈ translateField tr th.1, ch ≠ '@' ∧ ch ≠ '$') ∧
      (∀ ch ∈ th.2, ch ≠ '@' ∧ ch ≠ '$')) →
    applyLinks tr start links (withPlaceholders start chunks) = withSegs tr chunks links := by
  intro links
  induction links with
  | nil =>
    intro chunks start hlen _ _
    obtain ⟨c, hc⟩ : ∃ c, chunks = [c] := by
      cases chunks with
      | nil => simp at hlen
      | cons c rest =>
        cases rest with
        | nil => exact ⟨c, rfl⟩
        | cons d u =>
          exfalso
          simp only [List.length_cons, List.length_nil] at hlen
          omega
    subst hc
    rfl
  | cons th ls ih =>
    intro chunks start hlen hch hlk
    cases chunks with
    | nil => simp at hlen
    | cons c rest =>
      have hrestlen : rest.length = ls.length + 1 := by
        simp only [List.length_cons] at hlen
        omega
      have hrestne : rest ≠ [] := by
        intro e
        rw [e] at hrestlen
        simp at hrestlen
      obtain ⟨d, u, hdu⟩ := List.exists_cons_of_ne_nil hrestne
      subst hdu
      have hth := hlk th (List.mem_cons_self th ls)
      have hseg := linkSeg_chars hth.1 hth.2
      have hrep : jsReplaceFirst
          (c ++ linkPlaceholder start ++ withPlaceholders (start + 1) (d :: u))
          (linkPlaceholder start) (linkSeg tr th)
          = c ++ linkSeg tr th ++ withPlaceholders (start + 1) (d :: u) := by
        rw [jsReplaceFirst_at (linkSeg tr th) (fun i hi => by
          have h0 := @no_prefix_in_clean (linkPlaceholder start) c
            (linkPlaceholder start ++ withPlaceholders (start + 1) (d :: u))
            (linkPlaceholder_head start)
            (fun ch hc2 => hch c (List.mem_cons_self c _) ch hc2) i hi
          simpa [List.append_assoc] using h0)]
        rw [getSubst_dollar_free _ _ _ (fun ch hc2 => (hseg ch hc2).2)]
      show applyLinks tr (start + 1) ls
          (jsReplaceFirst (withPlaceholders start (c :: d :: u)) (linkPlaceholder start)
            (linkSeg tr th)) = withSegs tr (c :: d :: u) (th :: ls)
      rw [show withPlaceholders start (c :: d :: u)
          = c ++ linkPlaceholder start ++ withPlaceholders (start + 1) (d :: u) from rfl,
        hrep]
      have hmerge : c ++ linkSeg tr th ++ withPlaceholders (start + 1) (d :: u)
          = withPlaceholders (start + 1) ((c ++ linkSeg tr th ++ d) :: u) := by
        cases u with
        | nil => simp [withPlaceholders]
        | cons e w => simp [withPlaceholders, List.append_assoc]
      rw [hmerge]
      rw [ih ((c ++ linkSeg tr th ++ d) :: u) (start + 1)
        (by simp only [List.length_cons] at hrestlen ⊢; omega)
        (by
          intro c2 hc2 ch hch2
          rcases List.mem_cons.mp hc2 with h1 | h1
          · subst h1
            rcases List.mem_append.mp hch2 with h2 | h2
            · rcases List.mem_append.mp h2 with h3 | h3
              · exact hch c (List.mem_cons_self c _) ch h3
              · exact (hseg ch h3).1
            · exact hch d (List.mem_cons_of_mem c (List.mem_cons_self d u)) ch h2
          · exact hch c2 (List.mem_cons_of_mem c (List.mem_cons_of_mem d h1)) ch hch2)
        (fun th2 hth2 => hlk th2 (List.mem_cons_of_mem th hth2))]
      rw [withSegs_merge tr (c ++ linkSeg tr th) d u ls]
      rfl

theorem occursIn_append_right {p v : Str} (u : Str) (h : OccursIn p v) :
    OccursIn p (u ++ v) := by
  obtain ⟨x, y, hxy⟩ := h
  exact ⟨u ++ x, y, by rw [hxy]; simp [List.append_assoc]⟩

theorem occursIn_withSegs (tr : Str → Str) :
    ∀ (links : List (Str × Str)) (chunks : List Str) (th : Str × Str),
    th ∈ links → chunks.length = links.length + 1 →
    OccursIn th.2 (withSegs tr chunks links) := by
  intro links
  induction links with
  | nil =>
    intro _ th hth _
    simp at hth
  | cons th2 ls ih =>
    intro chunks th hth hlen
    cases chunks with
    | nil => simp at hlen
    | cons c rest =>
      have hrestlen : rest.length = ls.length + 1 := by
        simp only [List.length_cons] at hlen
        omega
      have hrestne : rest ≠ [] := by
        intro e
        rw [e] at hrestlen
        simp at hrestlen
      obtain ⟨d, u, hdu⟩ := List.exists_cons_of_ne_nil hrestne
      subst hdu
      rcases List.mem_cons.mp hth with h1 | h1
      · subst h1
        refine ⟨c ++ kw "[" ++ translateField tr th.1 ++ kw "](",
          kw ")" ++ withSegs tr (d :: u) ls, ?_⟩
        show withSegs tr (c :: d :: u) (th :: ls) = _
        simp [withSegs, linkSeg, List.append_assoc]
      · have hrec := ih (d :: u) th h1 (by simpa using hrestlen)
        exact occursIn_append_right (c ++ linkSeg tr th2) hrec

/-- The translator of the claim's scenario: it translates the link texts
`a` and `b` but nothing else. -/
def trScenario : Str → Str :=
  fun s => if s = kw "a" then kw "A" else if s = kw "b" then kw "B" else s

/-- C1 is refuted: the body `[t]($&)` with the identity translator comes
back as `[t](@@LINK_0@@)` — the `$&` of the href is treated as a
`$`-substitution pattern by `String.replace` during re-insertion and is
replaced by the matched placeholder, so the href is not byte-identical in
the output. -/
theorem translateMarkdownBody_counterexample :
    translateMarkdownBody (fun s => s) (kw "[t]($&)") = kw "[t](@@LINK_0@@)" ∧
    occursB (kw "$&") (translateMarkdownBody (fun s => s) (kw "[t]($&)")) = false :=
  ⟨by decide, by decide⟩

/-- C1 (amended): when the translated body keeps every placeholder in
order inside `@`-free surroundings, and the hrefs and translated link
texts are free of `@` and `$`, the final fold re-renders each link in its
slot with its href byte-identical; with a translator that only changes
link texts, `See [a](x.html) and [b](y.html).` becomes
`See [A](x.html) and [B](y.html).` with both hrefs intact. -/
theorem translateMarkdownBody_href_preservation (tr : Str → Str)
    (links : List (Str × Str)) (chunks : List Str)
    (hlen : chunks.length = links.length + 1)
    (hch : ∀ c ∈ chunks, ∀ ch ∈ c, ch ≠ '@')
    (hlk : ∀ th ∈ links, (∀ ch ∈ translateField tr th.1, ch ≠ '@' ∧ ch ≠ '$') ∧
      (∀ ch ∈ th.2, ch ≠ '@' ∧ ch ≠ '$')) :
    applyLinks tr 0 links (withPlaceholders 0 chunks) = withSegs tr chunks links ∧
    (∀ th ∈ links, OccursIn th.2 (applyLinks tr 0 links (withPlaceholders 0 chunks))) ∧
    translateMarkdownBody trScenario (kw "See [a](x.html) and [b](y.html).") =
      kw "See [A](x.html) and [B](y.html)." := by
  refine ⟨applyLinks_chunks tr links chunks 0 hlen hch hlk, ?_, by decide⟩
  intro th hth
  rw [applyLinks_chunks tr links chunks 0 hlen hch hlk]
  exact occursIn_withSegs tr links chunks th hth hlen

/-- Concrete instantiation of the href-preservation theorem on the
two-link scenario body. -/
theorem translateMarkdownBody_href_preservation_witness :
    ([kw "See ", kw " and ", kw "."].length
      = ([(kw "a", kw "x.html"), (kw "b", kw "y.html")] : List (Str × Str)).length + 1) ∧
    (∀ c ∈ [kw "See ", kw " and ", kw "."], ∀ ch ∈ c, ch ≠ '@') ∧
    (∀ th ∈ ([(kw "a", kw "x.html"), (kw "b", kw "y.html")] : List (Str × Str)),
      (∀ ch ∈ translateField trScenario th.1, ch ≠ '@' ∧ ch ≠ '$') ∧
      (∀ ch ∈ th.2, ch ≠ '@' ∧ ch ≠ '$')) ∧
    (applyLinks trScenario 0 [(kw "a", kw "x.html"), (kw "b", kw "y.html")]
        (withPlaceholders 0 [kw "See ", kw " and ", kw "."])
      = withSegs trScenario [kw "See ", kw " and ", kw "."]
          [(kw "a", kw "x.html"), (kw "b", kw "y.html")] ∧
     (∀ th ∈ ([(kw "a", kw "x.html"), (kw "b", kw "y.html")] : List (Str × Str)),
       OccursIn th.2 (applyLinks trScenario 0 [(kw "a", kw "x.html"), (kw "b", kw "y.html")]
         (withPlaceholders 0 [kw "See ", kw " and ", kw "."]))) ∧
     translateMarkdownBody trScenario (kw "See [a](x.html) and [b](y.html).") =
       kw "See [A](x.html) and [B](y.html).") :=
  ⟨by decide, by decide, by decide,
   translateMarkdownBody_href_preservation trScenario
     [(kw "a", kw "x.html"), (kw "b", kw "y.html")] [kw "See ", kw " and ", kw "."]
     (by decide) (by decide) (by decide)⟩

end SMB
